import Mathlib

/-!
Shallow embedding of the scroll binary-data access library (byte-buffer
reading/writing with contexts), together with theorems checking its
specification claims.

Byte sequences are modelled as `List Nat` (each entry a byte value), offsets
and sizes as `Nat`, with the 64-bit `usize` wraparound of the Rust source made
explicit as `% USIZE` where the source performs `usize` arithmetic that can
overflow.  Fallible operations return `RResult`: `ok`/`error` mirror
`Ok`/`Err`, `panicked` marks an execution that hits a Rust panic (index out of
range or checked overflow), and `oob` marks an unchecked out-of-bounds raw
memory access (undefined behaviour, no panic).
-/

namespace Scroll

/-- Size of the usize value space on a 64-bit host. -/
def USIZE : Nat := 2 ^ 64

/-- Error kinds of scroll's error model (src/error.rs): `BadOffset`,
`BadRange` and `BadInput`.  The claims only distinguish the kinds, so the
diagnostic payloads are not modelled. -/
inductive ScrollErr : Type
  | badOffset : ScrollErr
  | badRange : ScrollErr
  | badInput : ScrollErr
deriving DecidableEq, Repr

/-- Outcome of running a scroll operation. -/
inductive RResult (α : Type) : Type
  | ok : α → RResult α
  | error : ScrollErr → RResult α
  | panicked : RResult α
  | oob : RResult α
deriving DecidableEq, Repr

/-- Whether an outcome is an `error` return. -/
def RResult.isError {α : Type} : RResult α → Bool
  | .error _ => true
  | _ => false

/-- Endianness context (src/endian.rs): little or big. -/
inductive Endian : Type
  | little : Endian
  | big : Endian
deriving DecidableEq, Repr

/-- Little-endian byte list of a value, `W` bytes long. -/
def leBytesN : Nat → Nat → List Nat
  | 0, _ => []
  | W + 1, v => v % 256 :: leBytesN W (v / 256)

/-- Value of a byte list read little-endian (first byte is least
significant). -/
def leValN : List Nat → Nat
  | [] => 0
  | b :: t => b + 256 * leValN t

/-- Bytes produced by `write_into!` (src/ctx.rs): the value is converted with
`to_le`/`to_be` and transmuted to `[u8; W]`, which yields its `W` bytes in the
requested byte order. -/
def endianBytes (le : Endian) (W v : Nat) : List Nat :=
  if le = Endian.little then leBytesN W v else (leBytesN W v).reverse

/-- Value decoded by `from_ctx` (src/ctx.rs `from_ctx_impl!`): `W` bytes are
copied into a same-width scratch integer and byte-swapped if the requested
endianness differs from the host order; the net effect is interpreting the
first `W` bytes of the slice in the requested byte order. -/
def endianVal (le : Endian) (W : Nat) (l : List Nat) : Nat :=
  if le = Endian.little then leValN (l.take W) else leValN ((l.take W).reverse)

/-- Result of replacing `patch.length` bytes of `dst` starting at `o`. -/
def listWriteAt (dst : List Nat) (o : Nat) (patch : List Nat) : List Nat :=
  dst.take o ++ patch ++ dst.drop (o + patch.length)

/-- The `W`-byte slice `l[o..o+W]`. -/
def listSlice (l : List Nat) (o W : Nat) : List Nat :=
  (l.drop o).take W

/-- Fallible numeric decode, src/ctx.rs `from_ctx_impl!` `try_from_ctx`: the
source computes `offset + $size` in `usize` (wrapping on overflow in release
builds) and compares with `src.len()`; on pass it decodes
`&src[offset..offset + $size]`, which panics when the true `offset + $size`
exceeds the length (reachable only when the add wrapped). -/
def tryFromCtxNum (W : Nat) (src : List Nat) (offset : Nat) (le : Endian) :
    RResult Nat :=
  if (offset + W) % USIZE > src.length then .error .badOffset
  else if offset + W ≤ src.length then .ok (endianVal le W (src.drop offset))
  else .panicked

/-- Signed view of a `W`-byte pattern (the `as $typ` reinterpretation the
source performs for the signed integer types). -/
def asSigned (W u : Nat) : Int :=
  if 2 * u < 2 ^ (8 * W) then (u : Int) else (u : Int) - 2 ^ (8 * W)

/-- Two's-complement `W`-byte pattern of a signed value. -/
def intToPat (W : Nat) (x : Int) : Nat :=
  (x % ((2 : Int) ^ (8 * W))).toNat

/-- Fallible decode of a signed numeric type: same bytes as the unsigned
decode, reinterpreted two's-complement. -/
def tryFromCtxIntNum (W : Nat) (src : List Nat) (offset : Nat) (le : Endian) :
    RResult Int :=
  match tryFromCtxNum W src offset le with
  | .ok u => .ok (asSigned W u)
  | .error e => .error e
  | .panicked => .panicked
  | .oob => .oob

/-- Fallible numeric encode, src/ctx.rs `into_ctx_impl!` `try_into_ctx`: same
wrapping bounds check as the decode, then `into_ctx` writes the `W` bytes into
`&mut dst[offset..offset + $size]`. -/
def tryIntoCtxNum (W v : Nat) (dst : List Nat) (offset : Nat) (le : Endian) :
    RResult (List Nat) :=
  if (offset + W) % USIZE > dst.length then .error .badOffset
  else if offset + W ≤ dst.length then
    .ok (listWriteAt dst offset (endianBytes le W v))
  else .panicked

/-- Fallible byte-slice decode, src/ctx.rs `TryRefFromCtx for [u8]`: wrapping
bounds check on `offset + count`, then the subslice
`&b[offset..offset + count]`. -/
def trySliceFromCtx (src : List Nat) (offset count : Nat) :
    RResult (List Nat) :=
  if (offset + count) % USIZE > src.length then .error .badOffset
  else if offset + count ≤ src.length then .ok (listSlice src offset count)
  else .panicked

/-- Size/offset validation, src/greater.rs `TryOffsetWith for [u8]`: checks
`offset + size > len` (wrapping `usize` add) and returns the size on
success. -/
def tryOffset (W : Nat) (src : List Nat) (offset : Nat) : RResult Nat :=
  if (offset + W) % USIZE > src.length then .error .badRange else .ok W

/-- Fallible byte-slice encode, src/ctx.rs `TryIntoCtx for &'a [u8]`: the
context carries the offset and the bounds check is `offset + size >
dst.len()`, so `dst` is the whole destination buffer; but the copy is
`copy_nonoverlapping(self.as_ptr(), dst.as_mut_ptr(), size)`, which writes the
bytes at positions `0..size`, ignoring the offset.  The copy itself stays in
bounds iff `size ≤ dst.len()`; when the wrapping bounds check passes with
`size > dst.len()` the copy is an unchecked out-of-bounds write. -/
def tryIntoCtxBytes (v : List Nat) (dst : List Nat) (offset : Nat) :
    RResult (List Nat) :=
  if (offset + v.length) % USIZE > dst.length then .error .badOffset
  else if v.length ≤ dst.length then .ok (v ++ dst.drop v.length)
  else .oob

/-- Unchecked numeric read, src/greater.rs `Cread::cread_with`: evaluates
`N::from_ctx(&self[offset..], ctx)`.  The indexing `self[offset..]` panics iff
`offset > len`; `from_ctx` then unconditionally copies `W` bytes from the
start of that suffix with `copy_nonoverlapping`, which reads past the end of
the buffer (no panic) whenever the suffix is shorter than `W`. -/
def creadNum (W : Nat) (src : List Nat) (offset : Nat) (le : Endian) :
    RResult Nat :=
  if offset > src.length then .panicked
  else if offset + W ≤ src.length then .ok (endianVal le W (src.drop offset))
  else .oob

/-- Positional read entry point, src/pread.rs `Pread for [u8]`: `pread`
delegates directly to the target type's `TryFromCtx::try_from_ctx` with no
check of its own, whatever the decode implementation is. -/
def preadPoly {α : Type} (f : List Nat → Nat × Endian → RResult α)
    (src : List Nat) (offset : Nat) (le : Endian) : RResult α :=
  f src (offset, le)

/-- Positional write entry point, src/pwrite.rs `Pwrite::pwrite_with`: the
coarse check `offset >= self.measure_with(&ctx)` (the measured length,
src/measure.rs) errors before any encode; otherwise the encode runs on the
suffix `&mut self[offset..]` and reports the bytes written. -/
def pwritePoly (g : List Nat → RResult (Nat × List Nat)) (dst : List Nat)
    (offset : Nat) : RResult (Nat × List Nat) :=
  if offset ≥ dst.length then .error .badOffset
  else
    match g (dst.drop offset) with
    | .ok (size, suffix) => .ok (size, dst.take offset ++ suffix)
    | .error e => .error e
    | .panicked => .panicked
    | .oob => .oob

/-- Modelled from the spec: the fallible numeric encode used by the
`Pwrite::pwrite_with` entry point returns the number of bytes written (the
Size-returning `TryIntoCtx` numeric implementations are not part of the
sources here, only the older unit-returning ones in src/ctx.rs are); per
spec sections 4.2 and 4.3 it writes the `W` canonical bytes at the start of
the destination span and fails when the destination is shorter than `W`. -/
def encodeNumInto (W : Nat) (le : Endian) (v : Nat) (dst : List Nat) :
    RResult (Nat × List Nat) :=
  if dst.length < W then .error .badRange
  else .ok (W, endianBytes le W v ++ dst.drop W)

/-- Numeric positional write: src/pwrite.rs `pwrite_with` composed with the
numeric encode. -/
def pwriteWithNum (W : Nat) (le : Endian) (v : Nat) (dst : List Nat)
    (offset : Nat) : RResult (Nat × List Nat) :=
  pwritePoly (encodeNumInto W le v) dst offset

/-- Cursor-tracked numeric read, src/greater.rs `Gread::gread_with`: validates
with `try_offset`, reads with `pread_unsafe` (which unwraps, i.e. panics on a
decode error), then advances the cursor by the validated count.  The pair is
(outcome, cursor after the call). -/
def greadNum (W : Nat) (le : Endian) (src : List Nat) (off : Nat) :
    RResult Nat × Nat :=
  match tryOffset W src off with
  | .ok count =>
    match tryFromCtxNum W src off le with
    | .ok v => (.ok v, (off + count) % USIZE)
    | .error _ => (.panicked, off)
    | .panicked => (.panicked, off)
    | .oob => (.oob, off)
  | .error e => (.error e, off)
  | .panicked => (.panicked, off)
  | .oob => (.oob, off)

/-- Cursor-tracked slice read, src/greater.rs `Gread::gread_slice`: reads with
`pread_slice` and advances the cursor by `count` only on success. -/
def greadSlice (count : Nat) (src : List Nat) (off : Nat) :
    RResult (List Nat) × Nat :=
  match trySliceFromCtx src off count with
  | .ok l => (.ok l, (off + count) % USIZE)
  | .error e => (.error e, off)
  | .panicked => (.panicked, off)
  | .oob => (.oob, off)

/-- Cursor-tracked numeric write, src/pwrite.rs `Pwrite::gwrite_with`: calls
`pwrite_with` and advances the cursor by the returned size only on success.
The triple is (outcome, buffer after, cursor after). -/
def gwriteNum (W : Nat) (le : Endian) (v : Nat) (buf : List Nat)
    (off : Nat) : RResult Nat × List Nat × Nat :=
  match pwriteWithNum W le v buf off with
  | .ok (size, buf2) => (.ok size, buf2, (off + size) % USIZE)
  | .error e => (.error e, buf, off)
  | .panicked => (.panicked, buf, off)
  | .oob => (.oob, buf, off)

/-- One cursor-tracked operation. -/
inductive GOp : Type
  | rnum : Nat → Endian → GOp
  | rslice : Nat → GOp
  | wnum : Nat → Endian → Nat → GOp
deriving DecidableEq, Repr

/-- Consumed size of an operation (the fixed Size Query value for numeric
types, the explicit count for slices). -/
def opSize : GOp → Nat
  | .rnum W _ => W
  | .rslice c => c
  | .wnum W _ _ => W

/-- Run one cursor-tracked operation on a (buffer, cursor) state. -/
def runOp : GOp → List Nat × Nat → RResult Unit × (List Nat × Nat)
  | .rnum W le, (buf, c) =>
    match greadNum W le buf c with
    | (.ok _, c2) => (.ok (), (buf, c2))
    | (.error e, c2) => (.error e, (buf, c2))
    | (.panicked, c2) => (.panicked, (buf, c2))
    | (.oob, c2) => (.oob, (buf, c2))
  | .rslice count, (buf, c) =>
    match greadSlice count buf c with
    | (.ok _, c2) => (.ok (), (buf, c2))
    | (.error e, c2) => (.error e, (buf, c2))
    | (.panicked, c2) => (.panicked, (buf, c2))
    | (.oob, c2) => (.oob, (buf, c2))
  | .wnum W le v, (buf, c) =>
    match gwriteNum W le v buf c with
    | (.ok _, buf2, c2) => (.ok (), (buf2, c2))
    | (.error e, buf2, c2) => (.error e, (buf2, c2))
    | (.panicked, buf2, c2) => (.panicked, (buf2, c2))
    | (.oob, buf2, c2) => (.oob, (buf2, c2))

/-- Run a sequence of cursor-tracked operations, `some` final state iff every
operation returned `ok`. -/
def runOpsOk : List GOp → List Nat × Nat → Option (List Nat × Nat)
  | [], s => some s
  | op :: rest, s =>
    match runOp op s with
    | (.ok _, s2) => runOpsOk rest s2
    | _ => none

/-- The while loop of src/ctx.rs `get_str_delimiter_offset`: while the current
byte is not the delimiter and `i < len`, read `byte = bytes[i]` and increment
`i`.  Returns the final (byte, i) pair. -/
def strDelimLoop (bytes : List Nat) (delim : Nat) (byte i : Nat) :
    Nat × Nat :=
  if byte ≠ delim ∧ i < bytes.length then
    strDelimLoop bytes delim (bytes.getD i 0) (i + 1)
  else (byte, i)
termination_by bytes.length - i

/-- src/ctx.rs `get_str_delimiter_offset`: the caller guarantees
`idx < bytes.len()`, so the initial `bytes[idx]` access is in bounds (modelled
with `getD`). -/
def getStrDelimiterOffset (bytes : List Nat) (idx delim : Nat) : Nat :=
  let byte := bytes.getD idx 0
  if byte = delim then idx
  else
    let r := strDelimLoop bytes delim byte idx
    if r.2 < bytes.length ∨ bytes.getD (r.2 - 1) 0 = delim then r.2 - 1
    else r.2

/-- Whether a byte is a UTF-8 continuation byte. -/
def utf8Cont (c : Nat) : Bool :=
  0x80 ≤ c && c ≤ 0xBF

/-- UTF-8 validity of a byte list, the check performed by the standard
library's `str::from_utf8` (RFC 3629 byte ranges). -/
def isUTF8 : List Nat → Bool
  | [] => true
  | b :: rest =>
    if b ≤ 0x7F then isUTF8 rest
    else if 0xC2 ≤ b && b ≤ 0xDF then
      match rest with
      | c1 :: r => utf8Cont c1 && isUTF8 r
      | [] => false
    else if b = 0xE0 then
      match rest with
      | c1 :: c2 :: r => (0xA0 ≤ c1 && c1 ≤ 0xBF) && utf8Cont c2 && isUTF8 r
      | _ => false
    else if (0xE1 ≤ b && b ≤ 0xEC) || b = 0xEE || b = 0xEF then
      match rest with
      | c1 :: c2 :: r => utf8Cont c1 && utf8Cont c2 && isUTF8 r
      | _ => false
    else if b = 0xED then
      match rest with
      | c1 :: c2 :: r => (0x80 ≤ c1 && c1 ≤ 0x9F) && utf8Cont c2 && isUTF8 r
      | _ => false
    else if b = 0xF0 then
      match rest with
      | c1 :: c2 :: c3 :: r =>
        (0x90 ≤ c1 && c1 ≤ 0xBF) && utf8Cont c2 && utf8Cont c3 && isUTF8 r
      | _ => false
    else if 0xF1 ≤ b && b ≤ 0xF3 then
      match rest with
      | c1 :: c2 :: c3 :: r =>
        utf8Cont c1 && utf8Cont c2 && utf8Cont c3 && isUTF8 r
      | _ => false
    else if b = 0xF4 then
      match rest with
      | c1 :: c2 :: c3 :: r =>
        (0x80 ≤ c1 && c1 ≤ 0x8F) && utf8Cont c2 && utf8Cont c3 && isUTF8 r
      | _ => false
    else false

/-- Spec-side description of the delimiter search: the index of the first
delimiter byte at or after `i`, or the sequence length when no delimiter
occurs before the end. -/
def findFrom (bytes : List Nat) (delim i : Nat) : Nat :=
  i + ((bytes.drop i).takeWhile (fun b => b ≠ delim)).length

/-- Delimiter-terminated string decode, src/ctx.rs
`TryFromCtx<(usize, StrCtx)> for &'a str`: errors when `offset ≥ len`,
locates the delimiter, returns the (UTF-8 validated) view of the bytes
between the offset and the delimiter. -/
def strTryFromCtx (src : List Nat) (offset delim : Nat) :
    RResult (List Nat) :=
  if offset ≥ src.length then .error .badOffset
  else
    let delimiterOffset := getStrDelimiterOffset src offset delim
    let count := delimiterOffset - offset
    if count = 0 then .ok []
    else
      let bytes := listSlice src offset count
      if isUTF8 bytes then .ok bytes else .error .badInput

/-- The single-byte `u8` `pread` performed inside the unsigned LEB128 loop
(src/pread.rs delegating to src/ctx.rs `from_ctx_impl!` at size 1): the
bounds check computes `offset + 1` in usize, so at `i = usize::MAX` it wraps
to `0 > len`, passes, and the subsequent slice `&src[i..i+1]` — whose upper
bound wrapped to 0 — panics; away from the wrap the check errors with
`BadOffset` exactly when `i + 1 > len`, and otherwise the byte is read.  The
`i + 1 < USIZE` conjunct states that the slice's upper bound did not wrap
(its failure sends the wrap case, whatever the length, to the panic
outcome, matching `src[i..0]`). -/
def pread8 (src : List Nat) (i : Nat) : RResult Nat :=
  if (i + 1) % USIZE > src.length then .error .badOffset
  else if i + 1 ≤ src.length ∧ i + 1 < USIZE then .ok (src.getD i 0)
  else .panicked

/-- The single-byte `u8` `gread` performed inside the signed LEB128 loop
(src/greater.rs): `try_offset` checks the wrapped `offset + 1 > len` and
errors with `BadRange`; `pread_unsafe` then re-runs the `u8` decode, whose
identical check passes and whose slice `&src[i..i+1]` panics exactly when
the upper bound wrapped.  Same structure as `pread8` with the `BadRange`
error kind. -/
def gread8 (src : List Nat) (i : Nat) : RResult Nat :=
  if (i + 1) % USIZE > src.length then .error .badRange
  else if i + 1 ≤ src.length ∧ i + 1 < USIZE then .ok (src.getD i 0)
  else .panicked

/-- The read loop of src/leb128.rs `TryFromCtx for Uleb128`: `pread` a byte at
`offset + count` (a usize addition, hence the `% USIZE`; the read is the
wrapped-check `pread8`); at shift 63 any byte other than 0x00/0x01 is a
`BadInput` error; otherwise or the byte's low 7 bits into the `u64`
accumulator at the current shift (`u64` arithmetic, hence the `% USIZE`),
bump count and shift, and stop when the continuation bit 0x80 is clear. -/
def ulebLoop (src : List Nat) (offset : Nat) (result shift count : Nat) :
    RResult (Nat × Nat) :=
  match h : pread8 src ((offset + count) % USIZE) with
  | .ok byte =>
    if shift = 63 ∧ byte ≠ 0x00 ∧ byte ≠ 0x01 then .error .badInput
    else if byte &&& 0x80 = 0 then
      .ok (result ||| (((byte &&& 0x7f) <<< shift) % USIZE), count + 1)
    else
      ulebLoop src offset
        (result ||| (((byte &&& 0x7f) <<< shift) % USIZE))
        (shift + 7) (count + 1)
  | .error e => .error e
  | .panicked => .panicked
  | .oob => .oob
termination_by USIZE - ((offset + count) % USIZE)
decreasing_by
  unfold pread8 at h
  split at h
  · exact absurd h (by simp)
  · split at h
    · rename_i h1 h2
      simp only [USIZE] at *
      omega
    · exact absurd h (by simp)

/-- Unsigned LEB128 decode, src/leb128.rs `TryFromCtx for Uleb128`: returns
(value, bytes consumed). -/
def ulebTryFromCtx (src : List Nat) (offset : Nat) : RResult (Nat × Nat) :=
  ulebLoop src offset 0 0 0

/-- Spec-side unsigned LEB128 decode, transcribing the claim: bytes are read
one at a time, each contributing its low 7 bits at bit positions
7·depth (low-order first, here phrased compositionally as `+ 128 * tail`);
reading continues while the high bit 0x80 is set; at depth 9 (shift 63, the
10th byte) only the terminal bytes 0x00/0x01 are legal.  Running out of bytes
is the underlying byte read's `BadOffset` error. -/
def ulebSpec : Nat → List Nat → RResult (Nat × Nat)
  | _, [] => .error .badOffset
  | depth, b :: rest =>
    if depth = 9 ∧ b ≠ 0x00 ∧ b ≠ 0x01 then .error .badInput
    else if b &&& 0x80 = 0 then .ok (b &&& 0x7f, 1)
    else
      match ulebSpec (depth + 1) rest with
      | .ok (v, n) => .ok ((b &&& 0x7f) + 128 * v, n + 1)
      | .error e => .error e
      | .panicked => .panicked
      | .oob => .oob

/-- The read loop of src/leb128.rs `TryFromCtx for Sleb128`: `gread` a byte
at the cursor `offset + count` (a usize addition, hence the `% USIZE`; the
read is the wrapped-check `gread8`, erroring with `BadRange`); at shift 63
any byte other than 0x00/0x7f is a `BadInput` error; or the low 7 bits into
the `i64` accumulator (modelled as its 64-bit pattern, hence `% USIZE`), bump
the shift, and stop when the continuation bit is clear.  Returns
(pattern, terminal shift, last byte, count). -/
def slebLoop (src : List Nat) (offset : Nat) (result shift count : Nat) :
    RResult (Nat × Nat × Nat × Nat) :=
  match h : gread8 src ((offset + count) % USIZE) with
  | .ok byte =>
    if shift = 63 ∧ byte ≠ 0x00 ∧ byte ≠ 0x7f then .error .badInput
    else if byte &&& 0x80 = 0 then
      .ok (result ||| (((byte &&& 0x7f) <<< shift) % USIZE),
        shift + 7, byte, count + 1)
    else
      slebLoop src offset
        (result ||| (((byte &&& 0x7f) <<< shift) % USIZE))
        (shift + 7) (count + 1)
  | .error e => .error e
  | .panicked => .panicked
  | .oob => .oob
termination_by USIZE - ((offset + count) % USIZE)
decreasing_by
  unfold gread8 at h
  split at h
  · exact absurd h (by simp)
  · split at h
    · rename_i h1 h2
      simp only [USIZE] at *
      omega
    · exact absurd h (by simp)

/-- Signed LEB128 decode, src/leb128.rs `TryFromCtx for Sleb128`: after the
loop, if the terminal shift is below 64 and the sign bit 0x40 of the last byte
is set, or the pattern with `!0 << shift` (all higher-order bits one); the
value is the `i64` view of the final pattern, the count is the cursor
advance. -/
def slebTryFromCtx (src : List Nat) (offset : Nat) : RResult (Int × Nat) :=
  match slebLoop src offset 0 0 0 with
  | .ok (result, shift, byte, count) =>
    let result :=
      if shift < 64 ∧ byte &&& 0x40 = 0x40 then
        result ||| (((USIZE - 1) <<< shift) % USIZE)
      else result
    .ok (asSigned 8 result, count)
  | .error e => .error e
  | .panicked => .panicked
  | .oob => .oob

/-- Spec-side signed LEB128 decode: the same byte-consumption discipline as
the unsigned decode except that at depth 9 (shift 63) the legal terminal
bytes are 0x00/0x7f, and the terminal byte is sign-extended: when its 0x40
bit is set all higher-order bits of the value are ones, i.e. the terminal
contributes `low7 - 128`.  Running out of bytes is the cursor validation's
`BadRange` error. -/
def slebSpec : Nat → List Nat → RResult (Int × Nat)
  | _, [] => .error .badRange
  | depth, b :: rest =>
    if depth = 9 ∧ b ≠ 0x00 ∧ b ≠ 0x7f then .error .badInput
    else if b &&& 0x80 = 0 then
      .ok (((b &&& 0x7f : Nat) : Int) -
        (if b &&& 0x40 = 0x40 then 128 else 0), 1)
    else
      match slebSpec (depth + 1) rest with
      | .ok (v, n) => .ok (((b &&& 0x7f : Nat) : Int) + 128 * v, n + 1)
      | .error e => .error e
      | .panicked => .panicked
      | .oob => .oob

/-- Spec-side raw accumulation of a signed LEB128 byte sequence: the
unsigned low-7-bits value (low-order first), the last byte read, and the
count, with the signed legality rule at depth 9.  This is the common
consumption skeleton; `slebSpec` is this plus sign extension of the terminal
byte. -/
def slebSpecRaw : Nat → List Nat → RResult (Nat × Nat × Nat)
  | _, [] => .error .badRange
  | depth, b :: rest =>
    if depth = 9 ∧ b ≠ 0x00 ∧ b ≠ 0x7f then .error .badInput
    else if b &&& 0x80 = 0 then .ok (b &&& 0x7f, b, 1)
    else
      match slebSpecRaw (depth + 1) rest with
      | .ok (u, lb, n) => .ok ((b &&& 0x7f) + 128 * u, lb, n + 1)
      | .error e => .error e
      | .panicked => .panicked
      | .oob => .oob

/-! Helper lemmas about the endian codec. -/

theorem leBytesN_length (W : Nat) : ∀ v, (leBytesN W v).length = W := by
  induction W with
  | zero => intro v; rfl
  | succ W ih => intro v; simp [leBytesN, ih]

theorem leValN_leBytesN (W : Nat) : ∀ v, leValN (leBytesN W v) = v % 256 ^ W := by
  induction W with
  | zero => intro v; simp [leBytesN, leValN, Nat.mod_one]
  | succ W ih =>
    intro v
    simp only [leBytesN, leValN, ih]
    rw [pow_succ, Nat.mul_comm (256 ^ W) 256, Nat.mod_mul]

theorem leBytesN_getD (W : Nat) :
    ∀ v i, i < W → (leBytesN W v).getD i 0 = v / 256 ^ i % 256 := by
  induction W with
  | zero => intro v i h; omega
  | succ W ih =>
    intro v i h
    cases i with
    | zero => simp [leBytesN]
    | succ i =>
      simp only [leBytesN, List.getD_cons_succ]
      rw [ih (v / 256) i (by omega), Nat.div_div_eq_div_mul,
        pow_succ, Nat.mul_comm (256 ^ i) 256]

theorem getD_reverse {l : List Nat} {i : Nat} (h : i < l.length) :
    l.reverse.getD i 0 = l.getD (l.length - 1 - i) 0 := by
  rw [List.getD_eq_getElem?_getD, List.getD_eq_getElem?_getD,
    List.getElem?_reverse h]

theorem endianBytes_length (le : Endian) (W v : Nat) :
    (endianBytes le W v).length = W := by
  cases le <;> simp [endianBytes, leBytesN_length]

theorem two_pow_eight_mul (W : Nat) : (2 : Nat) ^ (8 * W) = 256 ^ W := by
  rw [pow_mul]
  norm_num

theorem endianBytes_getD (le : Endian) (W v i : Nat) (h : i < W) :
    (endianBytes le W v).getD i 0 =
      v / 256 ^ (if le = Endian.little then i else W - 1 - i) % 256 := by
  cases le with
  | little => simpa [endianBytes] using leBytesN_getD W v i h
  | big =>
    have hlen : (leBytesN W v).length = W := leBytesN_length W v
    simp only [endianBytes, reduceCtorEq, if_false]
    rw [getD_reverse (by omega), hlen, leBytesN_getD W v (W - 1 - i) (by omega)]

theorem endianVal_of_take (le : Endian) (W v : Nat) (l : List Nat)
    (hl : l.take W = endianBytes le W v) (hv : v < 2 ^ (8 * W)) :
    endianVal le W l = v := by
  have h256 : v < 256 ^ W := by rw [← two_pow_eight_mul]; exact hv
  cases le with
  | little =>
    simp only [endianVal, if_true, eq_self_iff_true]
    rw [hl]
    simp only [endianBytes, if_true, eq_self_iff_true]
    rw [leValN_leBytesN, Nat.mod_eq_of_lt h256]
  | big =>
    simp only [endianVal, reduceCtorEq, if_false]
    rw [hl]
    simp only [endianBytes, reduceCtorEq, if_false]
    rw [List.reverse_reverse, leValN_leBytesN, Nat.mod_eq_of_lt h256]

theorem listWriteAt_length (dst patch : List Nat) (o : Nat)
    (h : o + patch.length ≤ dst.length) :
    (listWriteAt dst o patch).length = dst.length := by
  simp only [listWriteAt, List.length_append, List.length_take,
    List.length_drop]
  omega

theorem listSlice_listWriteAt (dst patch : List Nat) (o : Nat)
    (h : o + patch.length ≤ dst.length) :
    listSlice (listWriteAt dst o patch) o patch.length = patch := by
  unfold listSlice listWriteAt
  rw [List.append_assoc, List.drop_left' (by simp; omega),
    List.take_left' rfl]

theorem intToPat_lt (W : Nat) (x : Int) : intToPat W x < 2 ^ (8 * W) := by
  unfold intToPat
  have hpos : (0 : Int) < 2 ^ (8 * W) := by positivity
  have h1 : 0 ≤ x % (2 : Int) ^ (8 * W) := Int.emod_nonneg x (by positivity)
  have h2 : x % (2 : Int) ^ (8 * W) < (2 : Int) ^ (8 * W) :=
    Int.emod_lt_of_pos x hpos
  have hcast : (((2 : Nat) ^ (8 * W) : Nat) : Int) = (2 : Int) ^ (8 * W) := by
    push_cast
    ring
  omega

theorem asSigned_intToPat (W : Nat) (x : Int) (hW : 1 ≤ W)
    (hlo : -(2 ^ (8 * W - 1)) ≤ x) (hhi : x < 2 ^ (8 * W - 1)) :
    asSigned W (intToPat W x) = x := by
  have hcast : (((2 : Nat) ^ (8 * W) : Nat) : Int) = (2 : Int) ^ (8 * W) := by
    push_cast
    ring
  have hhalf : (2 : Int) ^ (8 * W) = 2 * 2 ^ (8 * W - 1) := by
    rw [← pow_succ']
    congr 1
    omega
  have hpos : (0 : Int) < 2 ^ (8 * W) := by positivity
  unfold asSigned intToPat
  rcases le_or_lt 0 x with hx | hx
  case inl =>
    have hmod : x % (2 : Int) ^ (8 * W) = x :=
      Int.emod_eq_of_lt hx (by omega)
    rw [hmod]
    have : 2 * x.toNat < 2 ^ (8 * W) := by omega
    rw [if_pos this]
    omega
  case inr =>
    have hmod : x % (2 : Int) ^ (8 * W) = x + 2 ^ (8 * W) := by
      rw [← Int.add_emod_self]
      exact Int.emod_eq_of_lt (by omega) (by omega)
    rw [hmod]
    have : ¬ 2 * (x + 2 ^ (8 * W)).toNat < 2 ^ (8 * W) := by omega
    rw [if_neg this]
    omega

/-- Decode round-trip at the heart of C2: writing the canonical bytes of a
representable value at a valid offset and decoding there yields the value
back. -/
theorem tryFromCtxNum_listWriteAt (W u o : Nat) (le : Endian)
    (dst : List Nat) (hu : u < 2 ^ (8 * W)) (ho : o + W ≤ dst.length)
    (hL : dst.length < USIZE) :
    tryFromCtxNum W (listWriteAt dst o (endianBytes le W u)) o le =
      RResult.ok u := by
  have hbound : o + (endianBytes le W u).length ≤ dst.length := by
    rw [endianBytes_length]
    omega
  have hsl := listSlice_listWriteAt dst (endianBytes le W u) o hbound
  rw [endianBytes_length] at hsl
  have hmod : (o + W) % USIZE = o + W := Nat.mod_eq_of_lt (by omega)
  unfold tryFromCtxNum
  rw [listWriteAt_length dst _ o hbound, hmod, if_neg (by omega),
    if_pos (by omega)]
  exact congrArg RResult.ok
    (endianVal_of_take le W u _ (by simpa [listSlice] using hsl) hu)

/-- C1: for every built-in fixed-width numeric read or write and for the
fallible slice read, an out-of-range offset yields an `Error` return and
never a panic or an out-of-bounds access.  The claim as stated is false: the
bounds checks compute `offset + size` in `usize`, which wraps on a 64-bit
host, so for offsets near `usize::MAX` the check passes and the subsequent
slicing panics instead of returning an `Error` (counterexample below).  The
amended claim adds the hypothesis that `offset + size` does not overflow
`usize`; under it every cited fallible accessor returns the claimed
`BadOffset`/`BadRange` error. -/
theorem c1_fallible_bounds_amended (W : Nat) (src : List Nat) (o : Nat)
    (le : Endian) (v c : Nat) (hW : 1 ≤ W) (hnoW : o + W < USIZE)
    (hout : o ≥ src.length ∨ o + W > src.length) (hnoC : o + c < USIZE)
    (houtC : o + c > src.length) :
    tryFromCtxNum W src o le = RResult.error ScrollErr.badOffset ∧
    tryIntoCtxNum W v src o le = RResult.error ScrollErr.badOffset ∧
    tryOffset W src o = RResult.error ScrollErr.badRange ∧
    trySliceFromCtx src o c = RResult.error ScrollErr.badOffset := by
  have hgt : o + W > src.length := by omega
  have hmod : (o + W) % USIZE = o + W := Nat.mod_eq_of_lt hnoW
  have hmodC : (o + c) % USIZE = o + c := Nat.mod_eq_of_lt hnoC
  refine ⟨?_, ?_, ?_, ?_⟩
  · unfold tryFromCtxNum
    rw [hmod, if_pos hgt]
  · unfold tryIntoCtxNum
    rw [hmod, if_pos hgt]
  · unfold tryOffset
    rw [hmod, if_pos hgt]
  · unfold trySliceFromCtx
    rw [hmodC, if_pos houtC]

/-- Witness for C1's amended theorem at a concrete out-of-range input. -/
theorem c1_fallible_bounds_witness :
    tryFromCtxNum 4 [0, 0] 1 Endian.little =
      RResult.error ScrollErr.badOffset ∧
    tryIntoCtxNum 4 7 [0, 0] 1 Endian.little =
      RResult.error ScrollErr.badOffset ∧
    tryOffset 4 [0, 0] 1 = RResult.error ScrollErr.badRange ∧
    trySliceFromCtx [0, 0] 1 3 = RResult.error ScrollErr.badOffset :=
  c1_fallible_bounds_amended 4 [0, 0] 1 Endian.little 7 3 (by decide)
    (by decide) (by decide) (by decide) (by decide)

/-- Counterexample to C1 as stated: on an 8-byte buffer, a `u64` read at
offset `usize::MAX` satisfies `o ≥ L`, yet the wrapping bounds check passes
(`(o + 8) % 2^64 = 7 ≤ 8`) and the slicing `&src[o..o+8]` panics, so the
operation does not return an `Error`. -/
theorem c1_counterexample :
    2 ^ 64 - 1 ≥ (List.replicate 8 (0 : Nat)).length ∧
    tryFromCtxNum 8 (List.replicate 8 0) (2 ^ 64 - 1) Endian.little =
      RResult.panicked ∧
    (tryFromCtxNum 8 (List.replicate 8 0) (2 ^ 64 - 1)
      Endian.little).isError = false := by
  decide

/-- C2: encoding a representable value at a valid offset writes exactly `W`
bytes, each the canonical byte of the value in the requested byte order
(little: byte `i` is `v / 256^i % 256`; big: reversed), and decoding the
written buffer at the same offset and endianness returns the value; the
two's-complement signed view round-trips likewise (the float codecs are the
same bit-pattern transmutes, covered by the unsigned case). -/
theorem c2_encode_decode (W v o : Nat) (x : Int) (le : Endian)
    (dst : List Nat) (hW : 1 ≤ W) (hv : v < 2 ^ (8 * W))
    (ho : o + W ≤ dst.length) (hL : dst.length < USIZE)
    (hxlo : -(2 ^ (8 * W - 1)) ≤ x) (hxhi : x < 2 ^ (8 * W - 1)) :
    tryIntoCtxNum W v dst o le =
      RResult.ok (listWriteAt dst o (endianBytes le W v)) ∧
    (endianBytes le W v).length = W ∧
    (∀ i, i < W → (endianBytes le W v).getD i 0 =
      v / 256 ^ (if le = Endian.little then i else W - 1 - i) % 256) ∧
    listSlice (listWriteAt dst o (endianBytes le W v)) o W =
      endianBytes le W v ∧
    tryFromCtxNum W (listWriteAt dst o (endianBytes le W v)) o le =
      RResult.ok v ∧
    tryFromCtxIntNum W (listWriteAt dst o (endianBytes le W (intToPat W x)))
      o le = RResult.ok x := by
  have hmod : (o + W) % USIZE = o + W := Nat.mod_eq_of_lt (by omega)
  have hbound : o + (endianBytes le W v).length ≤ dst.length := by
    rw [endianBytes_length]
    omega
  refine ⟨?_, endianBytes_length le W v, fun i hi => endianBytes_getD le W v i hi, ?_, ?_, ?_⟩
  · unfold tryIntoCtxNum
    rw [hmod, if_neg (by omega), if_pos (by omega)]
  · have hsl := listSlice_listWriteAt dst (endianBytes le W v) o hbound
    rw [endianBytes_length] at hsl
    exact hsl
  · exact tryFromCtxNum_listWriteAt W v o le dst hv ho hL
  · unfold tryFromCtxIntNum
    rw [tryFromCtxNum_listWriteAt W (intToPat W x) o le dst
      (intToPat_lt W x) ho hL]
    exact congrArg RResult.ok (asSigned_intToPat W x hW hxlo hxhi)

/-- Witness for C2 at a concrete input: a big-endian `u16` write of 0xBEEF at
offset 1 in a 3-byte buffer, and the signed value -2. -/
theorem c2_encode_decode_witness :
    tryIntoCtxNum 2 0xBEEF [0, 0, 0] 1 Endian.big =
      RResult.ok (listWriteAt [0, 0, 0] 1 (endianBytes Endian.big 2 0xBEEF)) ∧
    (endianBytes Endian.big 2 0xBEEF).length = 2 ∧
    (∀ i, i < 2 → (endianBytes Endian.big 2 0xBEEF).getD i 0 =
      0xBEEF / 256 ^ (if Endian.big = Endian.little then i else 2 - 1 - i) %
        256) ∧
    listSlice (listWriteAt [0, 0, 0] 1 (endianBytes Endian.big 2 0xBEEF)) 1 2 =
      endianBytes Endian.big 2 0xBEEF ∧
    tryFromCtxNum 2 (listWriteAt [0, 0, 0] 1 (endianBytes Endian.big 2 0xBEEF))
      1 Endian.big = RResult.ok 0xBEEF ∧
    tryFromCtxIntNum 2
      (listWriteAt [0, 0, 0] 1 (endianBytes Endian.big 2 (intToPat 2 (-2))))
      1 Endian.big = RResult.ok (-2) :=
  c2_encode_decode 2 0xBEEF 1 (-2) Endian.big [0, 0, 0] (by decide)
    (by decide) (by decide) (by decide) (by decide) (by decide)

/-- C6 (code bug): the fallible `&[u8]` encode bounds-checks
`offset + v.len() ≤ dst.len()` but copies `v` to `dst.as_mut_ptr()`, i.e. to
positions `0..v.len()`, ignoring the offset.  At the failing input
`dst = [0, 0]`, `v = [0xAA]`, `offset = 1`, the write succeeds yet leaves
position 1 untouched (the buffer becomes `[0xAA, 0]`), so the symmetric slice
read of 1 byte at offset 1 returns `[0]`, not `v` — the write is not placed
at `o..o+v.len()` as the claim states. -/
theorem c6_bytes_write_ignores_offset :
    tryIntoCtxBytes [0xAA] [0, 0] 1 = RResult.ok [0xAA, 0] ∧
    trySliceFromCtx [0xAA, 0] 1 1 = RResult.ok [0] ∧
    trySliceFromCtx [0xAA, 0] 1 1 ≠ RResult.ok [0xAA] := by
  decide

/-- C8 (code bug): the unchecked read `cread` relies on `&self[offset..]`,
whose bounds check only fires for `offset > len`; `from_ctx` then copies `W`
bytes unconditionally with `copy_nonoverlapping`.  At the failing input
`src = [0x00]` (length 1), `offset = 0`, `W = 2` (a `u16` read), the indexing
succeeds and the copy reads one byte past the end of the buffer — a silent
out-of-bounds read, not the panic the claim requires. -/
theorem c8_cread_reads_out_of_bounds :
    (0 : Nat) ≤ ([0] : List Nat).length ∧
    0 + 2 > ([0] : List Nat).length ∧
    creadNum 2 [0] 0 Endian.little = RResult.oob ∧
    creadNum 2 [0] 0 Endian.little ≠ RResult.panicked := by
  decide

/-- Counterexample to C7 as stated: the positional read entry point performs
no check of its own — it hands the offset straight to the target type's
decode — so with a decode implementation that ignores bounds, an offset past
the end of the sequence is not turned into an Error by `pread`. -/
theorem c7_counterexample :
    (0 : Nat) ≥ ([] : List Nat).length ∧
    preadPoly (fun _ _ => RResult.ok (0 : Nat)) [] 0 Endian.little =
      RResult.ok 0 ∧
    (preadPoly (fun _ _ => RResult.ok (0 : Nat)) [] 0
      Endian.little).isError = false :=
  ⟨Nat.le_refl 0, rfl, rfl⟩

/-- C7 amended: `pread` delegates directly to the target type's decode with
no coarse pre-check; the coarse `offset < measured length` check exists on
the write entry point `pwrite_with` (which errors for every offset ≥ length
no matter which encode is used), and each built-in decode (numeric, string,
slice) validates bounds itself, so for the built-in codecs every read at
offset ≥ length (without `usize` overflow in `offset + size`) still returns
an Error. -/
theorem c7_coarse_check_amended (g : List Nat → RResult (Nat × List Nat))
    (dst : List Nat) (o W c d : Nat) (src : List Nat) (le : Endian)
    (hW : 1 ≤ W) (hc : 1 ≤ c) (ho : o ≥ src.length) (hod : o ≥ dst.length)
    (hnoW : o + W < USIZE) (hnoC : o + c < USIZE) :
    pwritePoly g dst o = RResult.error ScrollErr.badOffset ∧
    tryFromCtxNum W src o le = RResult.error ScrollErr.badOffset ∧
    strTryFromCtx src o d = RResult.error ScrollErr.badOffset ∧
    trySliceFromCtx src o c = RResult.error ScrollErr.badOffset := by
  refine ⟨?_, ?_, ?_, ?_⟩
  · unfold pwritePoly
    rw [if_pos hod]
  · unfold tryFromCtxNum
    rw [Nat.mod_eq_of_lt hnoW, if_pos (by omega)]
  · unfold strTryFromCtx
    rw [if_pos ho]
  · unfold trySliceFromCtx
    rw [Nat.mod_eq_of_lt hnoC, if_pos (by omega)]

/-- Witness for C7's amended theorem at concrete out-of-range inputs. -/
theorem c7_coarse_check_witness :
    pwritePoly (fun l => RResult.ok (0, l)) [] 1 =
      RResult.error ScrollErr.badOffset ∧
    tryFromCtxNum 2 [5] 1 Endian.little =
      RResult.error ScrollErr.badOffset ∧
    strTryFromCtx [5] 1 0 = RResult.error ScrollErr.badOffset ∧
    trySliceFromCtx [5] 1 1 = RResult.error ScrollErr.badOffset :=
  c7_coarse_check_amended (fun l => RResult.ok (0, l)) [] 1 2 1 0 [5]
    Endian.little (by decide) (by decide) (by decide) (by decide)
    (by decide) (by decide)

/-! Helper lemmas for the cursor accessor (C5). -/

theorem greadNum_ok (W : Nat) (le : Endian) (buf : List Nat) (c v c2 : Nat)
    (hL : buf.length < USIZE) (h : greadNum W le buf c = (.ok v, c2)) :
    c2 = c + W ∧ c + W ≤ buf.length := by
  unfold greadNum at h
  split at h
  case _ count heq =>
    split at h
    case _ v2 heq2 =>
      unfold tryOffset at heq
      split at heq
      case _ => exact absurd heq (by simp)
      case _ hc =>
        unfold tryFromCtxNum at heq2
        split at heq2
        case _ => exact absurd heq2 (by simp)
        case _ =>
          split at heq2
          case _ hin =>
            have hcount : count = W := by
              have := heq
              simp at this
              omega
            simp at h
            subst hcount
            refine ⟨?_, hin⟩
            rw [← h.2, Nat.mod_eq_of_lt (by omega)]
          case _ => exact absurd heq2 (by simp)
    all_goals exact absurd h (by simp)
  all_goals exact absurd h (by simp)

theorem greadNum_error (W : Nat) (le : Endian) (buf : List Nat) (c : Nat)
    (e : ScrollErr) (c2 : Nat) (h : greadNum W le buf c = (.error e, c2)) :
    c2 = c := by
  unfold greadNum at h
  split at h
  case _ =>
    split at h
    all_goals simp at h
  all_goals simp at h
  all_goals omega

theorem greadSlice_ok (count : Nat) (buf : List Nat) (c : Nat)
    (l : List Nat) (c2 : Nat) (hL : buf.length < USIZE)
    (h : greadSlice count buf c = (.ok l, c2)) :
    c2 = c + count ∧ c + count ≤ buf.length := by
  unfold greadSlice at h
  split at h
  case _ l2 heq =>
    unfold trySliceFromCtx at heq
    split at heq
    case _ => exact absurd heq (by simp)
    case _ =>
      split at heq
      case _ hin =>
        simp at h
        refine ⟨?_, hin⟩
        rw [← h.2, Nat.mod_eq_of_lt (by omega)]
      case _ => exact absurd heq (by simp)
  all_goals exact absurd h (by simp)

theorem greadSlice_error (count : Nat) (buf : List Nat) (c : Nat)
    (e : ScrollErr) (c2 : Nat)
    (h : greadSlice count buf c = (.error e, c2)) : c2 = c := by
  unfold greadSlice at h
  split at h
  all_goals simp at h
  all_goals omega

theorem gwriteNum_ok (W : Nat) (le : Endian) (v : Nat) (buf : List Nat)
    (c : Nat) (size : Nat) (buf2 : List Nat) (c2 : Nat)
    (hL : buf.length < USIZE)
    (h : gwriteNum W le v buf c = (.ok size, buf2, c2)) :
    buf2.length = buf.length ∧ c2 = c + W := by
  unfold gwriteNum at h
  split at h
  case _ size2 bufx heq =>
    unfold pwriteWithNum pwritePoly at heq
    split at heq
    case _ => exact absurd heq (by simp)
    case _ hoff =>
      split at heq
      case _ pr heq2 =>
        unfold encodeNumInto at heq2
        split at heq2
        case _ => exact absurd heq2 (by simp)
        case _ hfit =>
          simp only [List.length_drop, Nat.not_lt] at hfit
          simp only [RResult.ok.injEq, Prod.mk.injEq] at heq heq2
          obtain ⟨hsz, hbufx⟩ := heq
          obtain ⟨hsz2, hsuf⟩ := heq2
          simp only [Prod.mk.injEq, RResult.ok.injEq] at h
          obtain ⟨hs, hb2, hc2⟩ := h
          have hW : size2 = W := by omega
          constructor
          · rw [← hb2, ← hbufx, ← hsuf]
            simp [endianBytes_length]
            omega
          · rw [← hc2, hW, Nat.mod_eq_of_lt (by omega)]
      all_goals exact absurd heq (by simp)
  all_goals exact absurd h (by simp)

theorem gwriteNum_error (W : Nat) (le : Endian) (v : Nat) (buf : List Nat)
    (c : Nat) (e : ScrollErr) (buf2 : List Nat) (c2 : Nat)
    (h : gwriteNum W le v buf c = (.error e, buf2, c2)) :
    buf2 = buf ∧ c2 = c := by
  unfold gwriteNum at h
  split at h
  all_goals simp at h
  all_goals simp [h]

theorem runOp_ok (op : GOp) (buf : List Nat) (c : Nat) (buf2 : List Nat)
    (c2 : Nat) (hL : buf.length < USIZE)
    (h : runOp op (buf, c) = (.ok (), (buf2, c2))) :
    buf2.length = buf.length ∧ c2 = c + opSize op := by
  cases op with
  | rnum W le =>
    simp only [runOp] at h
    split at h
    case _ v cx heq =>
      simp only [Prod.mk.injEq, RResult.ok.injEq] at h
      obtain ⟨-, hb, hc⟩ := h
      obtain ⟨h1, -⟩ := greadNum_ok W le buf c v cx hL heq
      subst hb
      exact ⟨rfl, by simp [opSize]; omega⟩
    all_goals simp at h
  | rslice count =>
    simp only [runOp] at h
    split at h
    case _ l cx heq =>
      simp only [Prod.mk.injEq, RResult.ok.injEq] at h
      obtain ⟨-, hb, hc⟩ := h
      obtain ⟨h1, -⟩ := greadSlice_ok count buf c l cx hL heq
      subst hb
      exact ⟨rfl, by simp [opSize]; omega⟩
    all_goals simp at h
  | wnum W le v =>
    simp only [runOp] at h
    split at h
    case _ size bufx cx heq =>
      simp only [Prod.mk.injEq, RResult.ok.injEq] at h
      obtain ⟨-, hb, hc⟩ := h
      obtain ⟨h1, h2⟩ := gwriteNum_ok W le v buf c size bufx cx hL heq
      subst hb
      exact ⟨h1, by simp [opSize]; omega⟩
    all_goals simp at h

theorem runOp_error (op : GOp) (buf : List Nat) (c : Nat) (e : ScrollErr)
    (h : (runOp op (buf, c)).1 = RResult.error e) :
    (runOp op (buf, c)).2.2 = c := by
  cases op with
  | rnum W le =>
    simp only [runOp] at h ⊢
    split
    case _ r cx heq =>
      rw [heq] at h
      simp at h
    case _ ex cx heq =>
      rw [heq] at h
      exact greadNum_error W le buf c ex cx heq
    case _ cx heq =>
      rw [heq] at h
      simp at h
    case _ cx heq =>
      rw [heq] at h
      simp at h
  | rslice count =>
    simp only [runOp] at h ⊢
    split
    case _ r cx heq =>
      rw [heq] at h
      simp at h
    case _ ex cx heq =>
      rw [heq] at h
      exact greadSlice_error count buf c ex cx heq
    case _ cx heq =>
      rw [heq] at h
      simp at h
    case _ cx heq =>
      rw [heq] at h
      simp at h
  | wnum W le v =>
    simp only [runOp] at h ⊢
    split
    case _ r bufx cx heq =>
      rw [heq] at h
      simp at h
    case _ ex bufx cx heq =>
      rw [heq] at h
      exact (gwriteNum_error W le v buf c ex bufx cx heq).2
    case _ bufx cx heq =>
      rw [heq] at h
      simp at h
    case _ bufx cx heq =>
      rw [heq] at h
      simp at h

/-- C5: after any sequence of cursor-tracked reads (`gread_with`,
`gread_slice`) and writes (`gwrite_with`) that all succeed, the cursor equals
the initial cursor plus the sum of the operations' consumed sizes; and
whenever such an operation returns an `Error`, the cursor is left exactly as
it was before the call. -/
theorem c5_cursor_discipline :
    (∀ (ops : List GOp) (buf : List Nat) (c0 : Nat) (buf2 : List Nat)
      (c2 : Nat), buf.length < USIZE →
      runOpsOk ops (buf, c0) = some (buf2, c2) →
      c2 = c0 + (ops.map opSize).sum) ∧
    (∀ (op : GOp) (buf : List Nat) (c : Nat) (e : ScrollErr),
      (runOp op (buf, c)).1 = RResult.error e →
      (runOp op (buf, c)).2.2 = c) := by
  constructor
  · intro ops
    induction ops with
    | nil =>
      intro buf c0 buf2 c2 hL h
      simp [runOpsOk] at h
      simp [← h.2]
    | cons op rest ih =>
      intro buf c0 buf2 c2 hL h
      unfold runOpsOk at h
      split at h
      case _ u s2 heq =>
        obtain ⟨buf1, c1⟩ := s2
        cases u
        obtain ⟨hlen, hc⟩ := runOp_ok op buf c0 buf1 c1 hL heq
        have hrest := ih buf1 c1 buf2 c2 (by omega) h
        simp only [List.map_cons, List.sum_cons]
        omega
      case _ => exact absurd h (by simp)
  · exact runOp_error

/-- Witness for C5: a 2-byte read then a 1-byte write on `[1, 2, 3]` advance
the cursor from 0 to 3 = 0 + (2 + 1); a failing 8-byte read on `[1]` leaves
the cursor at 0. -/
theorem c5_cursor_discipline_witness :
    (3 : Nat) =
      0 + (([GOp.rnum 2 Endian.little, GOp.wnum 1 Endian.little 5].map
        opSize).sum) ∧
    (runOp (GOp.rnum 8 Endian.little) ([1], 0)).2.2 = 0 :=
  ⟨c5_cursor_discipline.1 [GOp.rnum 2 Endian.little, GOp.wnum 1 Endian.little 5]
      [1, 2, 3] 0 [1, 2, 5] 3 (by decide) (by decide),
    c5_cursor_discipline.2 (GOp.rnum 8 Endian.little) [1] 0
      ScrollErr.badRange (by decide)⟩

/-! Helper lemmas for the delimiter string codec (C9). -/

theorem takeWhile_length_le (p : Nat → Bool) (l : List Nat) :
    (l.takeWhile p).length ≤ l.length := by
  induction l with
  | nil => simp
  | cons a t ih =>
    rw [List.takeWhile_cons]
    by_cases h : p a
    · simp only [if_pos h, List.length_cons]
      omega
    · simp only [if_neg h]
      simp

theorem drop_eq_getD_cons {l : List Nat} {n : Nat} (h : n < l.length) :
    l.drop n = l.getD n 0 :: l.drop (n + 1) := by
  rw [List.drop_eq_getElem_cons h]
  congr 1
  rw [List.getD_eq_getElem?_getD, List.getElem?_eq_getElem h]
  rfl

theorem findFrom_le (bytes : List Nat) (delim i : Nat)
    (h : i ≤ bytes.length) : findFrom bytes delim i ≤ bytes.length := by
  unfold findFrom
  have h1 := takeWhile_length_le (fun b => decide (b ≠ delim)) (bytes.drop i)
  have h2 : (bytes.drop i).length = bytes.length - i := List.length_drop i bytes
  omega

theorem findFrom_ge (bytes : List Nat) (delim i : Nat) :
    i ≤ findFrom bytes delim i := by
  unfold findFrom
  omega

theorem findFrom_nil (bytes : List Nat) (delim : Nat) :
    findFrom bytes delim bytes.length = bytes.length := by
  unfold findFrom
  rw [List.drop_length]
  rfl

theorem findFrom_step (bytes : List Nat) (delim i : Nat)
    (hi : i < bytes.length) :
    findFrom bytes delim i =
      if bytes.getD i 0 = delim then i else findFrom bytes delim (i + 1) := by
  unfold findFrom
  rw [drop_eq_getD_cons hi, List.takeWhile_cons]
  by_cases h : bytes.getD i 0 = delim
  · have hq : bytes[i]?.getD 0 = delim := by simpa using h
    rw [if_pos h, if_neg (by simp [hq])]
    simp
  · have hq : ¬ bytes[i]?.getD 0 = delim := by simpa using h
    rw [if_neg h, if_pos (by simp [hq])]
    simp only [List.length_cons]
    omega

theorem findFrom_found (bytes : List Nat) (delim : Nat) :
    ∀ k i, bytes.length - i = k → i ≤ bytes.length →
    findFrom bytes delim i < bytes.length →
    bytes.getD (findFrom bytes delim i) 0 = delim := by
  intro k
  induction k with
  | zero =>
    intro i hk hile hf
    have hi : i = bytes.length := by omega
    subst hi
    rw [findFrom_nil] at hf
    omega
  | succ k ih =>
    intro i hk hile hf
    have hi : i < bytes.length := by omega
    rw [findFrom_step bytes delim i hi] at hf ⊢
    by_cases h : bytes.getD i 0 = delim
    · rw [if_pos h]
      exact h
    · rw [if_neg h] at hf ⊢
      exact ih (i + 1) (by omega) (by omega) hf

theorem findFrom_not_before (bytes : List Nat) (delim : Nat) :
    ∀ k i, bytes.length - i = k → i ≤ bytes.length →
    ∀ j, i ≤ j → j < findFrom bytes delim i → bytes.getD j 0 ≠ delim := by
  intro k
  induction k with
  | zero =>
    intro i hk hile j hij hjf
    have hi : i = bytes.length := by omega
    subst hi
    rw [findFrom_nil] at hjf
    omega
  | succ k ih =>
    intro i hk hile j hij hjf
    have hi : i < bytes.length := by omega
    rw [findFrom_step bytes delim i hi] at hjf
    by_cases h : bytes.getD i 0 = delim
    · rw [if_pos h] at hjf
      omega
    · rw [if_neg h] at hjf
      rcases Nat.eq_or_lt_of_le hij with hji | hji
      · rw [← hji]
        exact h
      · exact ih (i + 1) (by omega) (by omega) j (by omega) hjf

theorem strDelimLoop_spec (bytes : List Nat) (delim : Nat) :
    ∀ k i b, bytes.length - i = k → i ≤ bytes.length → b ≠ delim →
    strDelimLoop bytes delim b i =
      if findFrom bytes delim i < bytes.length
      then (delim, findFrom bytes delim i + 1)
      else ((if i < bytes.length then bytes.getD (bytes.length - 1) 0 else b),
        bytes.length) := by
  intro k
  induction k with
  | zero =>
    intro i b hk hile hb
    have hi : i = bytes.length := by omega
    subst hi
    rw [strDelimLoop]
    rw [if_neg (by omega)]
    rw [findFrom_nil]
    rw [if_neg (by omega), if_neg (by omega)]
  | succ k ih =>
    intro i b hk hile hb
    have hi : i < bytes.length := by omega
    rw [strDelimLoop]
    rw [if_pos ⟨hb, hi⟩]
    by_cases hd : bytes.getD i 0 = delim
    · rw [strDelimLoop]
      rw [if_neg (fun hcon => hcon.1 hd)]
      have hf : findFrom bytes delim i = i := by
        rw [findFrom_step bytes delim i hi, if_pos hd]
      rw [hf, if_pos hi, hd]
    · have hf : findFrom bytes delim i = findFrom bytes delim (i + 1) := by
        rw [findFrom_step bytes delim i hi, if_neg hd]
      rw [ih (i + 1) (bytes.getD i 0) (by omega) (by omega) hd, hf]
      by_cases hfl : findFrom bytes delim (i + 1) < bytes.length
      · rw [if_pos hfl, if_pos hfl]
      · rw [if_neg hfl, if_neg hfl]
        by_cases hi1 : i + 1 < bytes.length
        · rw [if_pos hi1, if_pos hi]
        · rw [if_neg hi1, if_pos hi]
          have : i = bytes.length - 1 := by omega
          rw [this]

theorem getStrDelimiterOffset_spec (bytes : List Nat) (idx delim : Nat)
    (h : idx < bytes.length) :
    getStrDelimiterOffset bytes idx delim = findFrom bytes delim idx := by
  unfold getStrDelimiterOffset
  by_cases h0 : bytes.getD idx 0 = delim
  · rw [if_pos h0, findFrom_step bytes delim idx h, if_pos h0]
  · rw [if_neg h0]
    rw [strDelimLoop_spec bytes delim (bytes.length - idx) idx
      (bytes.getD idx 0) rfl (by omega) h0]
    by_cases hf : findFrom bytes delim idx < bytes.length
    · rw [if_pos hf]
      have hd := findFrom_found bytes delim (bytes.length - idx) idx rfl
        (by omega) hf
      simp only [Nat.add_sub_cancel]
      rw [if_pos (Or.inr hd)]
    · rw [if_neg hf]
      have hfe : findFrom bytes delim idx = bytes.length := by
        have := findFrom_le bytes delim idx (by omega)
        omega
      have hlast : bytes.getD (bytes.length - 1) 0 ≠ delim := by
        apply findFrom_not_before bytes delim (bytes.length - idx) idx rfl
          (by omega) (bytes.length - 1) (by omega)
        omega
      simp only [if_pos h]
      rw [if_neg (by push_neg; exact ⟨by omega, hlast⟩), hfe]

/-- Characterization of the delimiter-terminated string decode for in-range
offsets: the result is the view of the bytes from the offset up to (and
excluding) the first delimiter at or after the offset — extending to the end
of the sequence when no delimiter occurs — UTF-8 validated. -/
theorem strTryFromCtx_spec (src : List Nat) (o delim : Nat)
    (h : o < src.length) :
    strTryFromCtx src o delim =
      (if isUTF8 (listSlice src o (findFrom src delim o - o)) = true
       then RResult.ok (listSlice src o (findFrom src delim o - o))
       else RResult.error ScrollErr.badInput) := by
  unfold strTryFromCtx
  rw [if_neg (by omega), getStrDelimiterOffset_spec src o delim h]
  by_cases hc : findFrom src delim o - o = 0
  · rw [if_pos hc, hc]
    have : listSlice src o 0 = [] := by simp [listSlice]
    rw [this]
    rfl
  · rw [if_neg hc]

/-- C9: for every in-range offset, the delimiter-terminated string decode
returns the UTF-8 view of the bytes from the offset up to but excluding the
first delimiter at or after the offset (`findFrom`), extending to the end of
the sequence when no delimiter occurs; on the bytes "hello world some junk"
with the space delimiter it yields "hello" at offset 0 and "world" at offset
6, each spanning 6 bytes including the consumed delimiter. -/
theorem c9_str_delimiter :
    (∀ (src : List Nat) (o delim : Nat), o < src.length →
      strTryFromCtx src o delim =
        (if isUTF8 (listSlice src o (findFrom src delim o - o)) = true
         then RResult.ok (listSlice src o (findFrom src delim o - o))
         else RResult.error ScrollErr.badInput)) ∧
    strTryFromCtx
      [104, 101, 108, 108, 111, 32, 119, 111, 114, 108, 100, 32, 115, 111,
        109, 101, 32, 106, 117, 110, 107] 0 32 =
      RResult.ok [104, 101, 108, 108, 111] ∧
    findFrom
      [104, 101, 108, 108, 111, 32, 119, 111, 114, 108, 100, 32, 115, 111,
        109, 101, 32, 106, 117, 110, 107] 32 0 - 0 + 1 = 6 ∧
    strTryFromCtx
      [104, 101, 108, 108, 111, 32, 119, 111, 114, 108, 100, 32, 115, 111,
        109, 101, 32, 106, 117, 110, 107] 6 32 =
      RResult.ok [119, 111, 114, 108, 100] ∧
    findFrom
      [104, 101, 108, 108, 111, 32, 119, 111, 114, 108, 100, 32, 115, 111,
        109, 101, 32, 106, 117, 110, 107] 32 6 - 6 + 1 = 6 := by
  refine ⟨strTryFromCtx_spec, ?_, by decide, ?_, by decide⟩
  · rw [strTryFromCtx_spec _ _ _ (by decide)]
    decide
  · rw [strTryFromCtx_spec _ _ _ (by decide)]
    decide

/-- Witness for C9's general clause at a concrete input. -/
theorem c9_str_delimiter_witness :
    strTryFromCtx [65, 32, 66] 0 32 =
      (if isUTF8 (listSlice [65, 32, 66] 0 (findFrom [65, 32, 66] 32 0 - 0)) =
        true
       then RResult.ok (listSlice [65, 32, 66] 0 (findFrom [65, 32, 66] 32 0 -
         0))
       else RResult.error ScrollErr.badInput) :=
  c9_str_delimiter.1 [65, 32, 66] 0 32 (by decide)

/-! Helper lemmas for the LEB128 codec (C3, C4, C10). -/

theorem and_127_lt (b : Nat) : b &&& 127 < 128 := by
  have h := Nat.and_le_right (n := b) (m := 127)
  omega

theorem mul_mod_usize (s x : Nat) (hs : s ≤ 64) :
    (2 ^ s * x) % USIZE = 2 ^ s * (x % 2 ^ (64 - s)) := by
  have hpow : USIZE = 2 ^ s * 2 ^ (64 - s) := by
    unfold USIZE
    rw [← pow_add]
    congr 1
    omega
  rw [hpow, Nat.mul_mod_mul_left]

theorem lor_mod_usize_eq_add (r s x : Nat) (hr : r < 2 ^ s) (hs : s ≤ 64) :
    r ||| ((2 ^ s * x) % USIZE) = r + (2 ^ s * x) % USIZE := by
  rw [mul_mod_usize s x hs]
  rw [Nat.lor_comm]
  rw [← Nat.mul_add_lt_is_or hr (x % 2 ^ (64 - s))]
  omega

theorem add_mul_mod_usize (a s x : Nat) (ha : a < 2 ^ s) (hs : s ≤ 64) :
    (a + 2 ^ s * x) % USIZE = a + (2 ^ s * x) % USIZE := by
  rw [mul_mod_usize s x hs]
  have hpow : USIZE = 2 ^ s * 2 ^ (64 - s) := by
    unfold USIZE
    rw [← pow_add]
    congr 1
    omega
  rw [hpow, Nat.mod_mul]
  have h1 : (a + 2 ^ s * x) % 2 ^ s = a := by
    rw [Nat.add_mul_mod_self_left, Nat.mod_eq_of_lt ha]
  have h2 : (a + 2 ^ s * x) / 2 ^ s = x := by
    rw [Nat.add_mul_div_left a x (Nat.two_pow_pos s), Nat.div_eq_of_lt ha]
    omega
  rw [h1, h2]

/-- Combining one byte's low 7 bits at shift `7d` with the tail accumulated
from shift `7(d+1)` equals accumulating the compositional value at shift
`7d`. -/
theorem leb_combine (d b v : Nat) (hd : d ≤ 8) :
    (((b &&& 127) <<< (7 * d)) % USIZE) |||
      ((2 ^ (7 * (d + 1)) * v) % USIZE) =
      (2 ^ (7 * d) * ((b &&& 127) + 128 * v)) % USIZE := by
  have hb := and_127_lt b
  have hlow : (b &&& 127) * 2 ^ (7 * d) < 2 ^ (7 * (d + 1)) := by
    have hp : (2 : Nat) ^ (7 * (d + 1)) = 2 ^ (7 * d) * 128 := by
      rw [show 7 * (d + 1) = 7 * d + 7 by ring, pow_add]
      norm_num
    rw [hp]
    have := Nat.two_pow_pos (7 * d)
    nlinarith
  have hmodid : ((b &&& 127) <<< (7 * d)) % USIZE = (b &&& 127) * 2 ^ (7 * d) := by
    rw [Nat.shiftLeft_eq]
    apply Nat.mod_eq_of_lt
    calc (b &&& 127) * 2 ^ (7 * d) < 2 ^ (7 * (d + 1)) := hlow
      _ ≤ USIZE := by
        unfold USIZE
        exact Nat.pow_le_pow_right (by norm_num) (by omega)
  rw [hmodid]
  have hadd := lor_mod_usize_eq_add ((b &&& 127) * 2 ^ (7 * d))
    (7 * (d + 1)) v hlow (by omega)
  rw [hadd]
  have hsplit : 2 ^ (7 * d) * ((b &&& 127) + 128 * v) =
      (b &&& 127) * 2 ^ (7 * d) + 2 ^ (7 * (d + 1)) * v := by
    have hp : (2 : Nat) ^ (7 * (d + 1)) = 2 ^ (7 * d) * 128 := by
      rw [show 7 * (d + 1) = 7 * d + 7 by ring, pow_add]
      norm_num
    rw [hp]
    ring
  rw [hsplit, add_mul_mod_usize _ (7 * (d + 1)) v hlow (by omega)]

/-- Structural bounds on the spec-side unsigned LEB128 decode. -/
theorem ulebSpec_ok_bounds :
    ∀ (bytes : List Nat) (d v n : Nat), d ≤ 9 →
    ulebSpec d bytes = RResult.ok (v, n) →
    1 ≤ n ∧ d + n ≤ 10 ∧ v < 2 ^ (7 * n) ∧
    (d + n = 10 → v < 2 ^ (7 * (n - 1) + 1)) := by
  intro bytes
  induction bytes with
  | nil => intro d v n hd h; exact absurd h (by simp [ulebSpec])
  | cons b rest ih =>
    intro d v n hd h
    rw [ulebSpec] at h
    by_cases hleg : d = 9 ∧ b ≠ 0 ∧ b ≠ 1
    · rw [if_pos hleg] at h
      exact absurd h (by simp)
    · rw [if_neg hleg] at h
      by_cases hterm : b &&& 128 = 0
      · rw [if_pos hterm] at h
        simp only [RResult.ok.injEq, Prod.mk.injEq] at h
        obtain ⟨hv, hn⟩ := h
        have hlt := and_127_lt b
        refine ⟨by omega, by omega, by subst hv hn; simpa using hlt, ?_⟩
        intro h10
        have hd9 : d = 9 := by omega
        have hb01 : b = 0 ∨ b = 1 := by
          by_contra hcon
          push_neg at hcon
          exact hleg ⟨hd9, hcon⟩
        subst hv hn
        rcases hb01 with hb | hb <;> subst hb <;> decide
      · rw [if_neg hterm] at h
        have hd8 : d ≤ 8 := by
          by_contra hcon
          have hd9 : d = 9 := by omega
          have hb01 : b = 0 ∨ b = 1 := by
            by_contra hcon2
            push_neg at hcon2
            exact hleg ⟨hd9, hcon2⟩
          rcases hb01 with hb | hb <;> subst hb <;> simp at hterm
        cases hspec : ulebSpec (d + 1) rest with
        | ok p =>
          obtain ⟨v2, n2⟩ := p
          rw [hspec] at h
          simp only [RResult.ok.injEq, Prod.mk.injEq] at h
          obtain ⟨hv, hn⟩ := h
          obtain ⟨h1, h2, h3, h4⟩ := ih (d + 1) v2 n2 (by omega) hspec
          have hlt := and_127_lt b
          have hp : (2 : Nat) ^ (7 * (n2 + 1)) = 128 * 2 ^ (7 * n2) := by
            rw [show 7 * (n2 + 1) = 7 + 7 * n2 by ring, pow_add]
            norm_num
          refine ⟨by omega, by omega, ?_, ?_⟩
          · subst hv hn
            omega
          · intro h10
            have h4x := h4 (by omega)
            have hp2 : (2 : Nat) ^ (7 * (n2 + 1 - 1) + 1) =
                128 * 2 ^ (7 * (n2 - 1) + 1) := by
              rw [show 7 * (n2 + 1 - 1) + 1 = 7 + (7 * (n2 - 1) + 1) by omega,
                pow_add]
              norm_num
            subst hv hn
            omega
        | error e => rw [hspec] at h; exact absurd h (by simp)
        | panicked => rw [hspec] at h; exact absurd h (by simp)
        | oob => rw [hspec] at h; exact absurd h (by simp)

/-- Away from the wraparound point (`i + 1 < 2^64`) the per-byte `pread` is
the plain bounds check. -/
theorem pread8_no_wrap (src : List Nat) (i : Nat) (hi : i + 1 < USIZE) :
    pread8 src i =
      (if i < src.length then .ok (src.getD i 0) else .error .badOffset) := by
  unfold pread8
  rw [Nat.mod_eq_of_lt hi]
  by_cases h : i < src.length
  · rw [if_pos h, if_neg (by omega), if_pos ⟨by omega, hi⟩]
  · rw [if_neg h, if_pos (by omega)]

/-- Away from the wraparound point (`i + 1 < 2^64`) the per-byte `gread` is
the plain bounds check. -/
theorem gread8_no_wrap (src : List Nat) (i : Nat) (hi : i + 1 < USIZE) :
    gread8 src i =
      (if i < src.length then .ok (src.getD i 0) else .error .badRange) := by
  unfold gread8
  rw [Nat.mod_eq_of_lt hi]
  by_cases h : i < src.length
  · rw [if_pos h, if_neg (by omega), if_pos ⟨by omega, hi⟩]
  · rw [if_neg h, if_pos (by omega)]

/-- A successful per-byte `pread` implies the read stayed in bounds and its
upper bound did not wrap, and returns the byte at the index. -/
theorem pread8_ok_facts (src : List Nat) (i b : Nat)
    (h : pread8 src i = RResult.ok b) :
    i + 1 ≤ src.length ∧ i + 1 < USIZE ∧ b = src.getD i 0 := by
  unfold pread8 at h
  by_cases h1 : (i + 1) % USIZE > src.length
  · rw [if_pos h1] at h
    exact absurd h (by simp)
  · rw [if_neg h1] at h
    by_cases h2 : i + 1 ≤ src.length ∧ i + 1 < USIZE
    · rw [if_pos h2] at h
      simp only [RResult.ok.injEq] at h
      exact ⟨h2.1, h2.2, h.symm⟩
    · rw [if_neg h2] at h
      exact absurd h (by simp)

/-- One unfolding of the unsigned LEB128 loop when the byte read succeeds. -/
theorem ulebLoop_eq_of_ok (src : List Nat) (offset result shift count b : Nat)
    (h : pread8 src ((offset + count) % USIZE) = RResult.ok b) :
    ulebLoop src offset result shift count =
      (if shift = 63 ∧ b ≠ 0x00 ∧ b ≠ 0x01 then .error .badInput
       else if b &&& 0x80 = 0 then
         .ok (result ||| (((b &&& 0x7f) <<< shift) % USIZE), count + 1)
       else
         ulebLoop src offset
           (result ||| (((b &&& 0x7f) <<< shift) % USIZE))
           (shift + 7) (count + 1)) := by
  rw [ulebLoop, h]

/-- One unfolding of the unsigned LEB128 loop when the byte read errors. -/
theorem ulebLoop_eq_of_error (src : List Nat)
    (offset result shift count : Nat) (e : ScrollErr)
    (h : pread8 src ((offset + count) % USIZE) = RResult.error e) :
    ulebLoop src offset result shift count = RResult.error e := by
  rw [ulebLoop, h]

/-- One unfolding of the unsigned LEB128 loop when the byte read panics. -/
theorem ulebLoop_eq_of_panicked (src : List Nat)
    (offset result shift count : Nat)
    (h : pread8 src ((offset + count) % USIZE) = RResult.panicked) :
    ulebLoop src offset result shift count = RResult.panicked := by
  rw [ulebLoop, h]

/-- One unfolding of the unsigned LEB128 loop on the unused `oob` byte-read
outcome. -/
theorem ulebLoop_eq_of_oob (src : List Nat)
    (offset result shift count : Nat)
    (h : pread8 src ((offset + count) % USIZE) = RResult.oob) :
    ulebLoop src offset result shift count = RResult.oob := by
  rw [ulebLoop, h]

/-- One unfolding of the signed LEB128 loop when the byte read succeeds. -/
theorem slebLoop_eq_of_ok (src : List Nat) (offset result shift count b : Nat)
    (h : gread8 src ((offset + count) % USIZE) = RResult.ok b) :
    slebLoop src offset result shift count =
      (if shift = 63 ∧ b ≠ 0x00 ∧ b ≠ 0x7f then .error .badInput
       else if b &&& 0x80 = 0 then
         .ok (result ||| (((b &&& 0x7f) <<< shift) % USIZE),
           shift + 7, b, count + 1)
       else
         slebLoop src offset
           (result ||| (((b &&& 0x7f) <<< shift) % USIZE))
           (shift + 7) (count + 1)) := by
  rw [slebLoop, h]

/-- One unfolding of the signed LEB128 loop when the byte read errors. -/
theorem slebLoop_eq_of_error (src : List Nat)
    (offset result shift count : Nat) (e : ScrollErr)
    (h : gread8 src ((offset + count) % USIZE) = RResult.error e) :
    slebLoop src offset result shift count = RResult.error e := by
  rw [slebLoop, h]

/-- The accumulator loop of the unsigned LEB128 decode computes, from depth
`d` (shift `7d`), the compositional spec value scaled to its shift, or the
same error, provided the at most `10 - d` remaining byte reads stay below
the usize wraparound point (beyond it the wrapped bounds check of `pread8`
panics instead of erroring). -/
theorem ulebLoop_spec (src : List Nat) (offset : Nat) :
    ∀ k d c r, src.length - (offset + c) = k → d ≤ 9 →
    offset + c + (10 - d) < USIZE →
    ulebLoop src offset r (7 * d) c =
      (match ulebSpec d (src.drop (offset + c)) with
       | .ok (v, n) => .ok (r ||| ((2 ^ (7 * d) * v) % USIZE), c + n)
       | .error e => .error e
       | .panicked => .panicked
       | .oob => .oob) := by
  intro k
  induction k with
  | zero =>
    intro d c r hk hd hw
    have hge : src.length ≤ offset + c := by omega
    have hmod : (offset + c) % USIZE = offset + c :=
      Nat.mod_eq_of_lt (by omega)
    have h8 : pread8 src ((offset + c) % USIZE) =
        RResult.error .badOffset := by
      rw [hmod, pread8_no_wrap src (offset + c) (by omega),
        if_neg (by omega)]
    rw [List.drop_eq_nil_of_le hge,
      ulebLoop_eq_of_error src offset r (7 * d) c .badOffset h8]
    rfl
  | succ k ih =>
    intro d c r hk hd hw
    have hlt : offset + c < src.length := by omega
    have hmod : (offset + c) % USIZE = offset + c :=
      Nat.mod_eq_of_lt (by omega)
    have h8 : pread8 src ((offset + c) % USIZE) =
        RResult.ok (src.getD (offset + c) 0) := by
      rw [hmod, pread8_no_wrap src (offset + c) (by omega), if_pos hlt]
    rw [drop_eq_getD_cons hlt]
    rw [ulebLoop_eq_of_ok src offset r (7 * d) c (src.getD (offset + c) 0) h8]
    rw [ulebSpec]
    by_cases hleg : d = 9 ∧ src.getD (offset + c) 0 ≠ 0 ∧
        src.getD (offset + c) 0 ≠ 1
    · rw [if_pos (show 7 * d = 63 ∧ src.getD (offset + c) 0 ≠ 0 ∧
          src.getD (offset + c) 0 ≠ 1 from ⟨by omega, hleg.2⟩),
        if_pos hleg]
    · rw [if_neg (fun hcon => hleg ⟨by omega, hcon.2⟩), if_neg hleg]
      by_cases hterm : src.getD (offset + c) 0 &&& 128 = 0
      · rw [if_pos hterm, if_pos hterm]
        rw [Nat.shiftLeft_eq,
          Nat.mul_comm (src.getD (offset + c) 0 &&& 127) (2 ^ (7 * d))]
      · rw [if_neg hterm, if_neg hterm]
        have hd8 : d ≤ 8 := by
          by_contra hcon
          have hd9 : d = 9 := by omega
          have hb01 : src.getD (offset + c) 0 = 0 ∨
              src.getD (offset + c) 0 = 1 := by
            by_contra hcon2
            push_neg at hcon2
            exact hleg ⟨hd9, hcon2⟩
          rcases hb01 with hb | hb <;> rw [hb] at hterm <;> simp at hterm
        rw [show 7 * d + 7 = 7 * (d + 1) by ring]
        rw [show offset + c + 1 = offset + (c + 1) by ring]
        rw [ih (d + 1) (c + 1)
          (r ||| (((src.getD (offset + c) 0 &&& 127) <<< (7 * d)) % USIZE))
          (by omega) (by omega) (by omega)]
        cases hspec : ulebSpec (d + 1) (src.drop (offset + (c + 1))) with
        | ok p =>
          obtain ⟨v2, n2⟩ := p
          simp only
          rw [Nat.lor_assoc, leb_combine d (src.getD (offset + c) 0) v2 hd8]
          rw [show c + 1 + n2 = c + (n2 + 1) by ring]
        | error e => rfl
        | panicked => rfl
        | oob => rfl

/-- The unsigned LEB128 decode equals the compositional spec decode whenever
the ten-byte read window starting at the offset stays below the usize
wraparound point. -/
theorem uleb_eq_spec (src : List Nat) (offset : Nat)
    (hoff : offset + 10 < USIZE) :
    ulebTryFromCtx src offset = ulebSpec 0 (src.drop offset) := by
  unfold ulebTryFromCtx
  have h := ulebLoop_spec src offset (src.length - (offset + 0)) 0 0 0 rfl
    (by omega) (by omega)
  simp only [Nat.mul_zero, Nat.add_zero, pow_zero, one_mul, Nat.zero_or,
    Nat.zero_add] at h
  rw [h]
  cases hspec : ulebSpec 0 (src.drop offset) with
  | ok p =>
    obtain ⟨v, n⟩ := p
    obtain ⟨h1, h2, h3, h4⟩ := ulebSpec_ok_bounds (src.drop offset) 0 v n
      (by omega) hspec
    have hv64 : v < USIZE := by
      unfold USIZE
      by_cases hn10 : n = 10
      · have h4x := h4 (by omega)
        have he : 7 * (n - 1) + 1 = 64 := by omega
        rw [he] at h4x
        exact h4x
      · have hle : (2 : Nat) ^ (7 * n) ≤ 2 ^ 63 :=
          Nat.pow_le_pow_right (by norm_num) (by omega)
        have : (2 : Nat) ^ 63 < 2 ^ 64 := by norm_num
        omega
    simp only
    rw [Nat.mod_eq_of_lt hv64]
  | error e => rfl
  | panicked => rfl
  | oob => rfl

/-- The spec-side unsigned LEB128 decode inspects at most `10 - d` bytes. -/
theorem ulebSpec_take :
    ∀ (bytes : List Nat) (d : Nat), d ≤ 9 →
    ulebSpec d bytes = ulebSpec d (bytes.take (10 - d)) := by
  intro bytes
  induction bytes with
  | nil => intro d hd; rw [List.take_nil]
  | cons b rest ih =>
    intro d hd
    have htake : (b :: rest).take (10 - d) = b :: rest.take (10 - (d + 1)) := by
      rw [show 10 - d = (10 - (d + 1)) + 1 by omega]
      rfl
    rw [htake, ulebSpec, ulebSpec]
    by_cases hleg : d = 9 ∧ b ≠ 0 ∧ b ≠ 1
    · rw [if_pos hleg, if_pos hleg]
    · rw [if_neg hleg, if_neg hleg]
      by_cases hterm : b &&& 128 = 0
      · rw [if_pos hterm, if_pos hterm]
      · rw [if_neg hterm, if_neg hterm]
        have hd8 : d ≤ 8 := by
          by_contra hcon
          have hd9 : d = 9 := by omega
          have hb01 : b = 0 ∨ b = 1 := by
            by_contra hcon2
            push_neg at hcon2
            exact hleg ⟨hd9, hcon2⟩
          rcases hb01 with hb | hb <;> rw [hb] at hterm <;> simp at hterm
        rw [← ih (d + 1) (by omega)]

/-- C3: the unsigned LEB128 decode accumulates each byte's low 7 bits at
shifts 0, 7, 14, ... (low-order first, stated compositionally by `ulebSpec`),
continues exactly while the 0x80 continuation bit is set, and at shift 63
(the 10th byte) errors on any terminal byte other than 0x00/0x01 — for every
offset whose ten-byte read window stays below the usize wraparound point (at
the wraparound the in-loop byte read's wrapped bounds check panics rather
than erroring); in particular [0x82, 0x01] decodes to 130 consuming 2 bytes,
and ten 0xFF bytes followed by 0x01 is an error. -/
theorem c3_uleb_decode :
    (∀ (src : List Nat) (offset : Nat), offset + 10 < USIZE →
      ulebTryFromCtx src offset = ulebSpec 0 (src.drop offset)) ∧
    ulebTryFromCtx [0x82, 0x01] 0 = RResult.ok (130, 2) ∧
    ulebTryFromCtx (List.replicate 10 0xFF ++ [0x01]) 0 =
      RResult.error ScrollErr.badInput := by
  refine ⟨uleb_eq_spec, ?_, ?_⟩
  · rw [uleb_eq_spec _ _ (by decide)]
    decide
  · rw [uleb_eq_spec _ _ (by decide)]
    decide

/-- Witness for C3 at a concrete input: the general loop/spec equality
instantiated at [0x82, 0x01], offset 0. -/
theorem c3_uleb_decode_witness :
    ulebTryFromCtx [0x82, 0x01] 0 =
      ulebSpec 0 (([0x82, 0x01] : List Nat).drop 0) :=
  c3_uleb_decode.1 [0x82, 0x01] 0 (by decide)

/-- Whatever the offset — including those at which the byte reads wrap or
panic — a successful run of the unsigned LEB128 loop from depth `d` consumes
at most `10 - d` further bytes: the shift-63 legality rule admits no
continuation byte at depth 9. -/
theorem ulebLoop_ok_count (src : List Nat) (offset : Nat) :
    ∀ k d c r v n, USIZE - ((offset + c) % USIZE) = k → d ≤ 9 →
    ulebLoop src offset r (7 * d) c = RResult.ok (v, n) →
    n ≤ c + (10 - d) := by
  intro k
  induction k with
  | zero =>
    intro d c r v n hk hd h
    have hm : (offset + c) % (2 ^ 64) < 2 ^ 64 :=
      Nat.mod_lt _ (by norm_num)
    have hk2 : (2 : Nat) ^ 64 - (offset + c) % (2 ^ 64) = 0 := hk
    omega
  | succ k ih =>
    intro d c r v n hk hd h
    cases h8 : pread8 src ((offset + c) % USIZE) with
    | ok byte =>
      rw [ulebLoop_eq_of_ok src offset r (7 * d) c byte h8] at h
      by_cases hleg : 7 * d = 63 ∧ byte ≠ 0 ∧ byte ≠ 1
      · rw [if_pos hleg] at h
        exact absurd h (by simp)
      · rw [if_neg hleg] at h
        by_cases hterm : byte &&& 128 = 0
        · rw [if_pos hterm] at h
          simp only [RResult.ok.injEq, Prod.mk.injEq] at h
          omega
        · rw [if_neg hterm] at h
          have hd8 : d ≤ 8 := by
            by_contra hcon
            have hd9 : d = 9 := by omega
            have hb01 : byte = 0 ∨ byte = 1 := by
              by_contra hcon2
              push_neg at hcon2
              exact hleg ⟨by omega, hcon2⟩
            rcases hb01 with hb | hb <;> rw [hb] at hterm <;> simp at hterm
          obtain ⟨hin, hwrap, hbyte⟩ :=
            pread8_ok_facts src ((offset + c) % USIZE) byte h8
          have hstep : (offset + (c + 1)) % USIZE =
              (offset + c) % USIZE + 1 := by
            have h1 : (offset + c) % (2 ^ 64) + 1 < 2 ^ 64 := hwrap
            show (offset + (c + 1)) % (2 ^ 64) = (offset + c) % (2 ^ 64) + 1
            omega
          have hk2 : USIZE - ((offset + (c + 1)) % USIZE) = k := by
            rw [hstep]
            have h1 : (2 : Nat) ^ 64 - (offset + c) % (2 ^ 64) = k + 1 := hk
            show (2 : Nat) ^ 64 - ((offset + c) % (2 ^ 64) + 1) = k
            omega
          rw [show 7 * d + 7 = 7 * (d + 1) by ring] at h
          have := ih (d + 1) (c + 1)
            (r ||| (((byte &&& 127) <<< (7 * d)) % USIZE)) v n hk2
            (by omega) h
          omega
    | error e =>
      rw [ulebLoop_eq_of_error src offset r (7 * d) c e h8] at h
      exact absurd h (by simp)
    | panicked =>
      rw [ulebLoop_eq_of_panicked src offset r (7 * d) c h8] at h
      exact absurd h (by simp)
    | oob =>
      rw [ulebLoop_eq_of_oob src offset r (7 * d) c h8] at h
      exact absurd h (by simp)

/-- C10: unsigned LEB128 decode always terminates (it is a total function of
its input), never consumes more than 10 bytes on success — at every offset,
with no side condition — and, at every offset whose ten-byte read window
stays below the usize wraparound point, its result is entirely determined by
the first 10 bytes after the offset. -/
theorem c10_uleb_bounded :
    (∀ (src : List Nat) (offset v n : Nat),
      ulebTryFromCtx src offset = RResult.ok (v, n) → n ≤ 10) ∧
    (∀ (src : List Nat) (offset : Nat), offset + 10 < USIZE →
      ulebTryFromCtx src offset = ulebSpec 0 ((src.drop offset).take 10)) := by
  constructor
  · intro src offset v n h
    unfold ulebTryFromCtx at h
    have hcount := ulebLoop_ok_count src offset
      (USIZE - ((offset + 0) % USIZE)) 0 0 0 v n rfl (by omega) h
    omega
  · intro src offset hoff
    rw [uleb_eq_spec src offset hoff,
      ulebSpec_take (src.drop offset) 0 (by omega)]

/-- Witness for C10 at a concrete input: [0x85, 0x03] decodes to 389 in 2
bytes, 2 ≤ 10, and the decode agrees with the take-10 spec decode there. -/
theorem c10_uleb_bounded_witness :
    (ulebTryFromCtx [0x85, 0x03] 0 = RResult.ok (389, 2) ∧ (2 : Nat) ≤ 10) ∧
    ulebTryFromCtx [0x85, 0x03] 0 =
      ulebSpec 0 ((([0x85, 0x03] : List Nat).drop 0).take 10) :=
  ⟨⟨by rw [uleb_eq_spec _ _ (by decide)]; decide,
    c10_uleb_bounded.1 [0x85, 0x03] 0 389 2
      (by rw [uleb_eq_spec _ _ (by decide)]; decide)⟩,
    c10_uleb_bounded.2 [0x85, 0x03] 0 (by decide)⟩

/-- The accumulator loop of the signed LEB128 decode computes, from depth `d`
(shift `7d`), the raw spec accumulation scaled to its shift, together with
the terminal shift, last byte and count, or the same error, provided the at
most `10 - d` remaining byte reads stay below the usize wraparound point
(beyond it the wrapped bounds check of `gread8` panics instead of
erroring). -/
theorem slebLoop_raw (src : List Nat) (offset : Nat) :
    ∀ k d c r, src.length - (offset + c) = k → d ≤ 9 →
    offset + c + (10 - d) < USIZE →
    slebLoop src offset r (7 * d) c =
      (match slebSpecRaw d (src.drop (offset + c)) with
       | .ok (u, lb, n) =>
         .ok (r ||| ((2 ^ (7 * d) * u) % USIZE), 7 * (d + n), lb, c + n)
       | .error e => .error e
       | .panicked => .panicked
       | .oob => .oob) := by
  intro k
  induction k with
  | zero =>
    intro d c r hk hd hw
    have hge : src.length ≤ offset + c := by omega
    have hmod : (offset + c) % USIZE = offset + c :=
      Nat.mod_eq_of_lt (by omega)
    have h8 : gread8 src ((offset + c) % USIZE) =
        RResult.error .badRange := by
      rw [hmod, gread8_no_wrap src (offset + c) (by omega),
        if_neg (by omega)]
    rw [List.drop_eq_nil_of_le hge,
      slebLoop_eq_of_error src offset r (7 * d) c .badRange h8]
    rfl
  | succ k ih =>
    intro d c r hk hd hw
    have hlt : offset + c < src.length := by omega
    have hmod : (offset + c) % USIZE = offset + c :=
      Nat.mod_eq_of_lt (by omega)
    have h8 : gread8 src ((offset + c) % USIZE) =
        RResult.ok (src.getD (offset + c) 0) := by
      rw [hmod, gread8_no_wrap src (offset + c) (by omega), if_pos hlt]
    rw [drop_eq_getD_cons hlt]
    rw [slebLoop_eq_of_ok src offset r (7 * d) c (src.getD (offset + c) 0) h8]
    rw [slebSpecRaw]
    by_cases hleg : d = 9 ∧ src.getD (offset + c) 0 ≠ 0 ∧
        src.getD (offset + c) 0 ≠ 127
    · rw [if_pos (show 7 * d = 63 ∧ src.getD (offset + c) 0 ≠ 0 ∧
          src.getD (offset + c) 0 ≠ 127 from ⟨by omega, hleg.2⟩),
        if_pos hleg]
    · rw [if_neg (fun hcon => hleg ⟨by omega, hcon.2⟩), if_neg hleg]
      by_cases hterm : src.getD (offset + c) 0 &&& 128 = 0
      · rw [if_pos hterm, if_pos hterm]
        rw [Nat.shiftLeft_eq,
          Nat.mul_comm (src.getD (offset + c) 0 &&& 127) (2 ^ (7 * d)),
          show 7 * d + 7 = 7 * (d + 1) by ring]
      · rw [if_neg hterm, if_neg hterm]
        have hd8 : d ≤ 8 := by
          by_contra hcon
          have hd9 : d = 9 := by omega
          have hb01 : src.getD (offset + c) 0 = 0 ∨
              src.getD (offset + c) 0 = 127 := by
            by_contra hcon2
            push_neg at hcon2
            exact hleg ⟨hd9, hcon2⟩
          rcases hb01 with hb | hb <;> rw [hb] at hterm <;>
            exact hterm (by decide)
        rw [show 7 * d + 7 = 7 * (d + 1) by ring]
        rw [show offset + c + 1 = offset + (c + 1) by ring]
        rw [ih (d + 1) (c + 1)
          (r ||| (((src.getD (offset + c) 0 &&& 127) <<< (7 * d)) % USIZE))
          (by omega) (by omega) (by omega)]
        cases hspec : slebSpecRaw (d + 1) (src.drop (offset + (c + 1))) with
        | ok t =>
          obtain ⟨u2, lb2, n2⟩ := t
          simp only
          rw [Nat.lor_assoc, leb_combine d (src.getD (offset + c) 0) u2 hd8]
          rw [show c + 1 + n2 = c + (n2 + 1) by ring,
            show d + 1 + n2 = d + (n2 + 1) by ring]
        | error e => rfl
        | panicked => rfl
        | oob => rfl

/-- The signed spec decode is the raw accumulation with the terminal byte's
0x40 sign bit subtracting `2^(7n)` (i.e. all higher-order bits set). -/
theorem slebSpec_eq_raw :
    ∀ (bytes : List Nat) (d : Nat),
    slebSpec d bytes =
      (match slebSpecRaw d bytes with
       | .ok (u, lb, n) =>
         .ok ((u : Int) -
           (if lb &&& 64 = 64 then (2 : Int) ^ (7 * n) else 0), n)
       | .error e => .error e
       | .panicked => .panicked
       | .oob => .oob) := by
  intro bytes
  induction bytes with
  | nil => intro d; rfl
  | cons b rest ih =>
    intro d
    rw [slebSpec, slebSpecRaw]
    by_cases hleg : d = 9 ∧ b ≠ 0 ∧ b ≠ 127
    · rw [if_pos hleg, if_pos hleg]
    · rw [if_neg hleg, if_neg hleg]
      by_cases hterm : b &&& 128 = 0
      · rw [if_pos hterm, if_pos hterm]
        simp only [RResult.ok.injEq, Prod.mk.injEq]
        refine ⟨?_, trivial⟩
        by_cases hs : b &&& 64 = 64
        · rw [if_pos hs, if_pos hs]
          norm_num
        · rw [if_neg hs, if_neg hs]
      · rw [if_neg hterm, if_neg hterm]
        rw [ih (d + 1)]
        cases hraw : slebSpecRaw (d + 1) rest with
        | ok t =>
          obtain ⟨u2, lb2, n2⟩ := t
          simp only [RResult.ok.injEq, Prod.mk.injEq]
          refine ⟨?_, trivial⟩
          by_cases hs : lb2 &&& 64 = 64
          · rw [if_pos hs, if_pos hs]
            push_cast
            have hp : (2 : Int) ^ (7 * (n2 + 1)) = 128 * 2 ^ (7 * n2) := by
              rw [show 7 * (n2 + 1) = 7 + 7 * n2 by ring, pow_add]
              norm_num
            rw [hp]
            ring
          · rw [if_neg hs, if_neg hs]
            push_cast
            ring
        | error e => rfl
        | panicked => rfl
        | oob => rfl

/-- Structural bounds on the raw signed LEB128 accumulation. -/
theorem slebSpecRaw_ok_bounds :
    ∀ (bytes : List Nat) (d u lb n : Nat), d ≤ 9 →
    slebSpecRaw d bytes = RResult.ok (u, lb, n) →
    1 ≤ n ∧ d + n ≤ 10 ∧ lb &&& 128 = 0 ∧
    (d + n = 10 → lb = 0 ∨ lb = 127) ∧
    ∃ u0, u = u0 + (lb &&& 127) * 2 ^ (7 * (n - 1)) ∧
      u0 < 2 ^ (7 * (n - 1)) := by
  intro bytes
  induction bytes with
  | nil => intro d u lb n hd h; exact absurd h (by simp [slebSpecRaw])
  | cons b rest ih =>
    intro d u lb n hd h
    rw [slebSpecRaw] at h
    by_cases hleg : d = 9 ∧ b ≠ 0 ∧ b ≠ 127
    · rw [if_pos hleg] at h
      exact absurd h (by simp)
    · rw [if_neg hleg] at h
      by_cases hterm : b &&& 128 = 0
      · rw [if_pos hterm] at h
        simp only [RResult.ok.injEq, Prod.mk.injEq] at h
        obtain ⟨hu, hlb, hn⟩ := h
        subst hu hlb hn
        refine ⟨by omega, by omega, hterm, ?_, 0, by simp, by simp⟩
        intro h10
        have hd9 : d = 9 := by omega
        by_contra hcon
        push_neg at hcon
        exact hleg ⟨hd9, hcon⟩
      · rw [if_neg hterm] at h
        cases hraw : slebSpecRaw (d + 1) rest with
        | ok t =>
          obtain ⟨u2, lb2, n2⟩ := t
          rw [hraw] at h
          simp only [RResult.ok.injEq, Prod.mk.injEq] at h
          obtain ⟨hu, hlb, hn⟩ := h
          have hd8 : d ≤ 8 := by
            by_contra hcon
            have hd9 : d = 9 := by omega
            have hb01 : b = 0 ∨ b = 127 := by
              by_contra hcon2
              push_neg at hcon2
              exact hleg ⟨hd9, hcon2⟩
            rcases hb01 with hb | hb <;> rw [hb] at hterm <;>
              exact hterm (by decide)
          obtain ⟨h1, h2, h3, h4, u0', hu0, hu0lt⟩ :=
            ih (d + 1) u2 lb2 n2 (by omega) hraw
          have hlt := and_127_lt b
          have hp : (2 : Nat) ^ (7 * n2) = 128 * 2 ^ (7 * (n2 - 1)) := by
            rw [show 7 * n2 = 7 + 7 * (n2 - 1) by omega, pow_add]
            norm_num
          subst hu hlb hn
          have hn1 : n2 + 1 - 1 = n2 := by omega
          refine ⟨by omega, by omega, h3, fun h10 => h4 (by omega),
            (b &&& 127) + 128 * u0', ?_, ?_⟩
          · rw [hn1, hu0, hp]
            ring
          · rw [hn1, hp]
            omega
        | error e => rw [hraw] at h; exact absurd h (by simp)
        | panicked => rw [hraw] at h; exact absurd h (by simp)
        | oob => rw [hraw] at h; exact absurd h (by simp)

/-- The bit pattern of `!0 << s` on a 64-bit value: all bits from `s`
upward. -/
theorem neg_one_shl_mod (s : Nat) (hs : s < 64) :
    ((USIZE - 1) <<< s) % USIZE = USIZE - 2 ^ s := by
  rw [Nat.shiftLeft_eq]
  have h1 : 0 < (2 : Nat) ^ s := Nat.two_pow_pos s
  have h2 : (2 : Nat) ^ s ≤ 2 ^ 63 :=
    Nat.pow_le_pow_right (by norm_num) (by omega)
  unfold USIZE
  omega

/-- The sign-extension post-processing of the signed LEB128 decode computes
exactly the spec-side value `U - (sign ? 2^(7n) : 0)`. -/
theorem sleb_post_correct (U lb n : Nat) (hn : 1 ≤ n) (hn10 : n ≤ 10)
    (hb10 : n = 10 → lb = 0 ∨ lb = 127)
    (hdec : ∃ u0, U = u0 + (lb &&& 127) * 2 ^ (7 * (n - 1)) ∧
      u0 < 2 ^ (7 * (n - 1))) :
    asSigned 8 (if 7 * n < 64 ∧ lb &&& 64 = 64 then
        (U % USIZE) ||| (((USIZE - 1) <<< (7 * n)) % USIZE)
      else U % USIZE) =
      (U : Int) - (if lb &&& 64 = 64 then (2 : Int) ^ (7 * n) else 0) := by
  obtain ⟨u0, hU, hu0⟩ := hdec
  have hlt127 := and_127_lt lb
  by_cases hn9 : n ≤ 9
  case pos =>
    have hp : (2 : Nat) ^ (7 * n) = 128 * 2 ^ (7 * (n - 1)) := by
      rw [show 7 * n = 7 + 7 * (n - 1) by omega, pow_add]
      norm_num
    have hc : (lb &&& 127) * 2 ^ (7 * (n - 1)) ≤ 127 * 2 ^ (7 * (n - 1)) :=
      Nat.mul_le_mul_right _ (by omega)
    have hUlt : U < 2 ^ (7 * n) := by
      rw [hp]
      omega
    have h63 : (2 : Nat) ^ (7 * n) ≤ 2 ^ 63 :=
      Nat.pow_le_pow_right (by norm_num) (by omega)
    have hUmod : U % USIZE = U := by
      apply Nat.mod_eq_of_lt
      unfold USIZE
      omega
    have h88 : (2 : Nat) ^ (8 * 8) = USIZE := by
      unfold USIZE
      norm_num
    by_cases hs : lb &&& 64 = 64
    case pos =>
      rw [if_pos ⟨by omega, hs⟩, if_pos hs, hUmod,
        neg_one_shl_mod (7 * n) (by omega)]
      have hps : USIZE = 2 ^ (7 * n) * 2 ^ (64 - 7 * n) := by
        unfold USIZE
        rw [← pow_add]
        congr 1
        omega
      have hrepr : USIZE - 2 ^ (7 * n) =
          2 ^ (7 * n) * (2 ^ (64 - 7 * n) - 1) := by
        rw [Nat.mul_sub_one, ← hps]
      have hor : U ||| (USIZE - 2 ^ (7 * n)) = U + (USIZE - 2 ^ (7 * n)) := by
        rw [hrepr, Nat.lor_comm, ← Nat.mul_add_lt_is_or hUlt]
        omega
      rw [hor]
      unfold asSigned
      have hpos : 0 < (2 : Nat) ^ (7 * n) := Nat.two_pow_pos _
      rw [if_neg (by rw [h88]; unfold USIZE at *; omega)]
      have hle : (2 : Nat) ^ (7 * n) ≤ USIZE := by
        unfold USIZE
        omega
      have hU64 : ((USIZE : Nat) : Int) = 2 ^ 64 := by
        norm_num [USIZE]
      have h88i : (2 : Int) ^ (8 * 8) = 2 ^ 64 := by norm_num
      push_cast [Nat.cast_sub hle]
      rw [hU64, h88i]
      ring
    case neg =>
      rw [if_neg (fun hcon => hs hcon.2), if_neg hs, hUmod]
      unfold asSigned
      rw [if_pos (by rw [h88]; unfold USIZE at *; omega)]
      simp
  case neg =>
    have hne : n = 10 := by omega
    subst hne
    rw [if_neg (fun hcon => absurd hcon.1 (by norm_num))]
    rcases hb10 rfl with hlb | hlb <;> subst hlb
    · rw [show (0 : Nat) &&& 127 = 0 by decide] at hU
      rw [show (7 * (10 - 1) : Nat) = 63 by norm_num] at hu0
      have hUe : U = u0 := by omega
      subst hUe
      have hmod : U % USIZE = U := by
        apply Nat.mod_eq_of_lt
        unfold USIZE
        omega
      rw [hmod]
      unfold asSigned
      rw [if_pos (by norm_num; omega)]
      rw [if_neg (by decide)]
      simp
    · rw [show (127 : Nat) &&& 127 = 127 by decide] at hU
      rw [show (7 * (10 - 1) : Nat) = 63 by norm_num] at hU hu0
      have hmod : U % USIZE = u0 + 2 ^ 63 := by
        unfold USIZE
        omega
      rw [hmod]
      unfold asSigned
      rw [if_neg (by norm_num; omega)]
      rw [if_pos (by decide)]
      rw [hU]
      push_cast
      omega

/-- The signed LEB128 decode equals the compositional spec decode whenever
the ten-byte read window starting at the offset stays below the usize
wraparound point. -/
theorem sleb_eq_spec (src : List Nat) (offset : Nat)
    (hoff : offset + 10 < USIZE) :
    slebTryFromCtx src offset = slebSpec 0 (src.drop offset) := by
  unfold slebTryFromCtx
  have h := slebLoop_raw src offset (src.length - (offset + 0)) 0 0 0 rfl
    (by omega) (by omega)
  simp only [Nat.mul_zero, Nat.add_zero, pow_zero, one_mul, Nat.zero_or,
    Nat.zero_add] at h
  rw [h, slebSpec_eq_raw]
  cases hraw : slebSpecRaw 0 (src.drop offset) with
  | ok t =>
    obtain ⟨U, lb, n⟩ := t
    obtain ⟨h1, h2, h3, h4, hdec⟩ :=
      slebSpecRaw_ok_bounds (src.drop offset) 0 U lb n (by omega) hraw
    simp only
    rw [sleb_post_correct U lb n h1 (by omega) (fun h10 => h4 (by omega))
      hdec]
  | error e => rfl
  | panicked => rfl
  | oob => rfl

/-- C4: the signed LEB128 decode uses the same consumption discipline as the
unsigned decode with the terminal legality bytes 0x00/0x7f at shift 63, and
sign-extends: when the terminal byte's 0x40 bit is set all higher-order bits
of the result are ones, stated compositionally by `slebSpec` as subtracting
`2^(7n)` — for every offset whose ten-byte read window stays below the usize
wraparound point (at the wraparound the in-loop byte read's wrapped bounds
check panics rather than erroring); in particular [0xFF, 0x7E] decodes to
-129 consuming 2 bytes, and at shift 63 a terminal byte other than 0x00/0x7f
is an error. -/
theorem c4_sleb_decode :
    (∀ (src : List Nat) (offset : Nat), offset + 10 < USIZE →
      slebTryFromCtx src offset = slebSpec 0 (src.drop offset)) ∧
    slebTryFromCtx [0xFF, 0x7E] 0 = RResult.ok (-129, 2) ∧
    slebTryFromCtx (List.replicate 9 0x80 ++ [0x01]) 0 =
      RResult.error ScrollErr.badInput := by
  refine ⟨sleb_eq_spec, ?_, ?_⟩
  · rw [sleb_eq_spec _ _ (by decide)]
    decide
  · rw [sleb_eq_spec _ _ (by decide)]
    decide

/-- Witness for C4 at a concrete input: the general loop/spec equality
instantiated at [0xFF, 0x7E], offset 0. -/
theorem c4_sleb_decode_witness :
    slebTryFromCtx [0xFF, 0x7E] 0 =
      slebSpec 0 (([0xFF, 0x7E] : List Nat).drop 0) :=
  c4_sleb_decode.1 [0xFF, 0x7E] 0 (by decide)

end Scroll
